import Mathlib

/-!
Verification of the JobRec matching core (`JobrecBackend.py`).

The embedding below models the weighted bipartite graph (`WeightedGraph`,
`_WeightedVertex`), the build phase (`build_graph`) and the ranking phase
(`recommend_jobs`) of the backend.  Python dictionaries are modelled as
insertion-ordered association lists (`dictGet?`, `dictSet`): CPython dicts
preserve insertion order, and `dict.__setitem__` overwrites the value of an
existing key in place.  A `_WeightedVertex` is hashed by object identity and
the graph owns exactly one vertex object per item, so the `neighbours`
dictionary (keyed by vertex objects) is modelled as an association list keyed
by the neighbour's item string.  Weights are modelled as integers (the
program only ever stores occurrence counts and the constant 1).

`get_all_vertices` returns a Python `set`, whose iteration order is
unspecified; the model fixes it to insertion order of the underlying dict.
`get_weight` raises `KeyError` when one of the items is not a vertex; the
model returns 0 there (all call sites in the program query present vertices,
and the theorems below only inspect weights of present vertices).
A raised `ValueError` in `add_edge` is modelled by `Except.error ()`, and
`build_graph` propagates it, mirroring exception propagation.
-/

namespace JobRec

/-- Lookup in an insertion-ordered association list (Python `dict[key]` /
`dict.get`). -/
def dictGet? {α : Type} : List (String × α) → String → Option α
  | [], _ => none
  | (k, v) :: rest, key => if k == key then some v else dictGet? rest key

/-- Assignment `d[key] = val` on an insertion-ordered dict: overwrite in
place if the key exists, otherwise append at the end. -/
def dictSet {α : Type} : List (String × α) → String → α → List (String × α)
  | [], key, val => [(key, val)]
  | (k, v) :: rest, key, val =>
    if k == key then (k, val) :: rest else (k, v) :: dictSet rest key val

/-- Python `key in dict`. -/
def hasKey {α : Type} (d : List (String × α)) (key : String) : Bool :=
  (dictGet? d key).isSome

/-- Model of `_WeightedVertex`: item, kind ('skill' or 'job') and the neighbours
dictionary mapping an adjacent vertex (identified by its item) to the edge
weight. -/
structure Vertex where
  item : String
  kind : String
  neighbours : List (String × Int)
deriving DecidableEq

/-- Model of `WeightedGraph`: the private `_vertices` dict from item to vertex. -/
structure WeightedGraph where
  vertices : List (String × Vertex)
deriving DecidableEq

/-- Method `WeightedGraph.add_vertex`: insert a fresh vertex unless the item is
already present (then a no-op). -/
def add_vertex (g : WeightedGraph) (item kind : String) : WeightedGraph :=
  if hasKey g.vertices item then g
  else ⟨g.vertices ++ [(item, ⟨item, kind, []⟩)]⟩

/-- Overwrite the entry `b ↦ w` in the neighbours dict of the vertex stored
at key `a` (one half of `add_edge`'s mutation). -/
def setNb (g : WeightedGraph) (a b : String) (w : Int) : WeightedGraph :=
  ⟨g.vertices.map fun p =>
    (p.1, if p.1 == a then { p.2 with neighbours := dictSet p.2.neighbours b w } else p.2)⟩

/-- Method `WeightedGraph.add_edge`: requires both endpoints to be present, then
records the weight symmetrically on both vertex objects; otherwise raises
`ValueError` (modelled as `Except.error ()`). -/
def add_edge (g : WeightedGraph) (item1 item2 : String) (w : Int) :
    Except Unit WeightedGraph :=
  if hasKey g.vertices item1 && hasKey g.vertices item2 then
    Except.ok (setNb (setNb g item1 item2 w) item2 item1 w)
  else Except.error ()

/-- Method `WeightedGraph.get_weight`: `v1.neighbours.get(v2, 0)`.  Python raises
`KeyError` when either item is absent; the model returns 0 in that case. -/
def get_weight (g : WeightedGraph) (item1 item2 : String) : Int :=
  match dictGet? g.vertices item1, dictGet? g.vertices item2 with
  | some v1, some _ => (dictGet? v1.neighbours item2).getD 0
  | _, _ => 0

/-- Method `WeightedGraph.get_all_vertices`: item identifiers, optionally filtered
by kind.  The Python set is modelled as a list in dict insertion order. -/
def get_all_vertices (g : WeightedGraph) (kind : String) : List String :=
  if kind ≠ "" then (g.vertices.filter fun p => p.2.kind == kind).map Prod.fst
  else g.vertices.map Prod.fst

/-- Method `WeightedGraph.has_vertex_helper`: vertex membership test. -/
def has_vertex_helper (g : WeightedGraph) (item : String) : Bool :=
  hasKey g.vertices item

/-- The `(item, kind)` view of the vertex dict (used to state invariants). -/
def kindsOf (g : WeightedGraph) : List (String × String) :=
  g.vertices.map fun p => (p.1, p.2.kind)

/-- Python `s.lower()`, character-wise (`Char.toLower` lowers the ASCII
range, which matches Python on the ASCII strings handled here). -/
def strToLower (s : String) : String :=
  ⟨s.data.map Char.toLower⟩

/-- Python `hay.startswith(pat)` on character lists. -/
def listStartsWith : List Char → List Char → Bool
  | _, [] => true
  | [], _ :: _ => false
  | c :: cs, p :: ps => c == p && listStartsWith cs ps

/-- Scanner for Python `str.count`: counts non-overlapping occurrences of
`pat`, the counter `k` suppresses positions covered by the previous match. -/
def countOccsAux (pat : List Char) : List Char → Nat → Nat
  | [], _ => 0
  | c :: rest, 0 =>
    if listStartsWith (c :: rest) pat then 1 + countOccsAux pat rest (pat.length - 1)
    else countOccsAux pat rest 0
  | _ :: rest, k + 1 => countOccsAux pat rest k

/-- Python `hay.count(pat)`: number of non-overlapping occurrences of `pat`
in `hay` (`len(hay) + 1` for the empty pattern, as in CPython). -/
def countOccs (hay pat : String) : Nat :=
  if pat.data == [] then hay.data.length + 1
  else countOccsAux pat.data hay.data 0

/-- Python `pat in hay` on character lists (substring containment). -/
def containsSubstr (pat : List Char) : List Char → Bool
  | [] => listStartsWith [] pat
  | c :: rest => listStartsWith (c :: rest) pat || containsSubstr pat rest

/-- Python `"[Low Match]" in s` — the fallback marker test used by the sort key. -/
def containsMarkerB (s : String) : Bool :=
  containsSubstr "[Low Match]".data s.data

/-- Code-point lexicographic `a <= b` on strings, as Python compares the
third component of the sort key. -/
def strLeB : List Char → List Char → Bool
  | [], _ => true
  | _ :: _, [] => false
  | a :: as, b :: bs =>
    if a.toNat == b.toNat then strLeB as bs else decide (a.toNat < b.toNat)

/-- The composite comparison induced by the Python sort key
`("[Low Match]" in label, -score, label)` (lexicographic tuple `<=`). -/
def keyLeB (a b : String × Int) : Bool :=
  if containsMarkerB a.1 == containsMarkerB b.1 then
    if a.2 == b.2 then strLeB a.1.data b.1.data
    else decide (b.2 < a.2)
  else containsMarkerB b.1

/-- Relation form of `keyLeB`, for `List.insertionSort`. -/
def keyLe (a b : String × Int) : Prop := keyLeB a b = true

instance : DecidableRel keyLe := fun a b =>
  inferInstanceAs (Decidable (keyLeB a b = true))

/-- A raw posting record: `role` and `company_name` are required by
`build_graph` (`job['role']`), the text fields are optional
(`job.get("text", "")`). -/
structure Job where
  role : String
  company_name : String
  text : Option String
  description : Option String
deriving DecidableEq

/-- The synthesized job label `f"{job['role']} at {job['company_name']}"`. -/
def jobLabel (j : Job) : String :=
  j.role ++ " at " ++ j.company_name

/-- Python `(job.get("text", "") + " " + job.get("description", "")).lower()`. -/
def jobContent (j : Job) : String :=
  strToLower (j.text.getD "" ++ " " ++ j.description.getD "")

/-- The label of the fallback twin vertex, `job_id + " [Low Match]"`. -/
def fallbackLabel (jobId : String) : String :=
  jobId ++ " [Low Match]"

/-- The inner loop of `build_graph` over the skill list: for each skill with
a positive occurrence count in the posting text, add an edge weighted by the
count; also accumulates the posting's `match_score`. -/
def addSkillEdges : WeightedGraph → String → String → List String →
    Except Unit (WeightedGraph × Nat)
  | g, _, _, [] => Except.ok (g, 0)
  | g, jobId, content, skill :: rest =>
    let count := countOccs content (strToLower skill)
    if 0 < count then
      match add_edge g (strToLower skill) jobId (count : Int) with
      | Except.error e => Except.error e
      | Except.ok g1 =>
        match addSkillEdges g1 jobId content rest with
        | Except.error e => Except.error e
        | Except.ok (g2, ms) => Except.ok (g2, count + ms)
    else
      addSkillEdges g jobId content rest

/-- The loop of `build_graph` over the postings: add the job vertex, add the
skill edges, and create the `[Low Match]` fallback twin (wired to the first
skill with weight 1) when the match score is zero and skills are present. -/
def processJobs : WeightedGraph → List String → List Job → Except Unit WeightedGraph
  | g, _, [] => Except.ok g
  | g, skills, job :: rest =>
    let jobId := jobLabel job
    let g1 := add_vertex g jobId "job"
    match addSkillEdges g1 jobId (jobContent job) skills with
    | Except.error e => Except.error e
    | Except.ok (g2, matchScore) =>
      if matchScore == 0 then
        match skills with
        | [] => processJobs g2 skills rest
        | s0 :: _ =>
          let fb := fallbackLabel jobId
          let g3 := add_vertex g2 fb "job"
          match add_edge g3 (strToLower s0) fb 1 with
          | Except.error e => Except.error e
          | Except.ok g4 => processJobs g4 skills rest
      else processJobs g2 skills rest

/-- Function `build_graph(skills, jobs)`: add one vertex per lower-cased skill, then
process every posting. -/
def build_graph (skills : List String) (jobs : List Job) :
    Except Unit WeightedGraph :=
  processJobs (skills.foldl (fun g s => add_vertex g (strToLower s) "skill") ⟨[]⟩)
    skills jobs

/-- The per-job aggregate `total_weight = sum(get_weight(skill, job) for
skill in skills if has_vertex_helper(skill))`. -/
def totalWeight (g : WeightedGraph) (skills : List String) (job : String) : Int :=
  ((skills.filter fun s => has_vertex_helper g s).map fun s => get_weight g s job).sum

/-- The backfill loop of `recommend_jobs`: append `(job, 1)` for every job
not already selected, stopping as soon as `limit` entries are reached. -/
def backfill (added : List String) (limit : Nat) :
    List String → List (String × Int) → List (String × Int)
  | [], scores => scores
  | job :: rest, scores =>
    let scoresNext := if added.contains job then scores else scores ++ [(job, 1)]
    if scoresNext.length == limit then scoresNext
    else backfill added limit rest scoresNext

/-- Function `recommend_jobs(graph, skills, limit)`: keep the jobs with positive
total weight, sort by the composite key (genuine matches first, then by
descending score, then by label), backfill up to `limit` with the remaining
jobs at synthetic score 1, and truncate to `limit`. -/
def recommend_jobs (g : WeightedGraph) (skills : List String) (limit : Nat) :
    List (String × Int) :=
  let jobs := get_all_vertices g "job"
  let scores := jobs.filterMap fun job =>
    let t := totalWeight g skills job
    if 0 < t then some (job, t) else none
  let sorted := List.insertionSort keyLe scores
  if sorted.length < limit then
    (backfill (sorted.map Prod.fst) limit jobs sorted).take limit
  else
    sorted.take limit

/-- A single mutating call on a `WeightedGraph`. -/
inductive GraphOp where
  | addV (item kind : String)
  | addE (item1 item2 : String) (w : Int)

/-- Execute one call.  A failing `add_edge` raises and leaves the graph
object unchanged, so the state after the call is the old graph. -/
def applyOp (g : WeightedGraph) : GraphOp → WeightedGraph
  | GraphOp.addV item kind => add_vertex g item kind
  | GraphOp.addE a b w =>
    match add_edge g a b w with
    | Except.ok g2 => g2
    | Except.error _ => g

/-- The graph reached from `WeightedGraph()` by a sequence of calls. -/
def runOps (ops : List GraphOp) : WeightedGraph :=
  ops.foldl applyOp ⟨[]⟩

/-- Every neighbour key stored in some vertex is itself a vertex of the
graph (edges are only ever created between present vertices). -/
def NbP (g : WeightedGraph) : Prop :=
  ∀ k v, dictGet? g.vertices k = some v →
    ∀ nk, (dictGet? v.neighbours nk).isSome = true → hasKey g.vertices nk = true

/-- The symmetry invariant: the recorded weight between two items is the
same in both directions. -/
def SymW (g : WeightedGraph) : Prop :=
  ∀ a b, get_weight g a b = get_weight g b a

/-- The `scores` list of `recommend_jobs` before sorting: jobs kept for a
strictly positive total weight, paired with that weight. -/
def keptScores (g : WeightedGraph) (skills : List String) : List (String × Int) :=
  (get_all_vertices g "job").filterMap fun job =>
    let t := totalWeight g skills job
    if 0 < t then some (job, t) else none

/-- The ordering guarantee between an earlier entry `e1` and a later entry
`e2` of the returned ranking: a `[Low Match]` entry is never followed by a
kept genuine entry, and two kept entries in the same marker group are in
descending-score order with the label as tie-break. -/
def rankRel (g : WeightedGraph) (skills : List String) (e1 e2 : String × Int) :
    Prop :=
  (containsMarkerB e1.1 = true → containsMarkerB e2.1 = false →
    totalWeight g skills e2.1 ≤ 0) ∧
  (containsMarkerB e1.1 = containsMarkerB e2.1 →
    0 < totalWeight g skills e1.1 → 0 < totalWeight g skills e2.1 →
    (e2.2 < e1.2 ∨ (e1.2 = e2.2 ∧ strLeB e1.1.data e2.1.data = true)))

/-! ### Example inputs used by the concrete theorems and witnesses -/

/-- Three postings: two with positive occurrence scores for "python" and one
with none. -/
def exampleJobsA : List Job :=
  [⟨"A", "X", none, some "python"⟩, ⟨"B", "Y", none, some "python python"⟩,
   ⟨"C", "Z", none, some "nothing here"⟩]

/-- The graph built from `exampleJobsA` with the single skill "python". -/
def exampleGraphA : WeightedGraph :=
  match build_graph ["python"] exampleJobsA with
  | Except.ok g => g
  | Except.error _ => ⟨[]⟩

/-- A one-vertex graph holding only the skill vertex "python". -/
def exampleGraphB : WeightedGraph :=
  ⟨[("python", ⟨"python", "skill", []⟩)]⟩

/-- The graph built from one posting and an empty skill list. -/
def exampleGraphD : WeightedGraph :=
  match build_graph [] [⟨"Dev", "Acme", none, none⟩] with
  | Except.ok g => g
  | Except.error _ => ⟨[]⟩

/-- The graph built from skills `["java"]` and the single posting whose
description matches nothing. -/
def exampleGraphC2 : WeightedGraph :=
  match build_graph ["java"] [⟨"Dev", "Acme", none, some "no relevant keywords here"⟩] with
  | Except.ok g => g
  | Except.error _ => ⟨[]⟩

/-- The graph built from the skill "Dev at Acme" (which collides with the
synthesized job label) and one posting by Acme. -/
def exampleGraphE : WeightedGraph :=
  match build_graph ["Dev at Acme"] [⟨"Dev", "Acme", none, none⟩] with
  | Except.ok g => g
  | Except.error _ => ⟨[]⟩

/-- The graph built from the mixed-case skill list `["Java", "python"]`. -/
def exampleGraphF : WeightedGraph :=
  match build_graph ["Java", "python"] [⟨"Dev", "Acme", none, some "java dev"⟩] with
  | Except.ok g => g
  | Except.error _ => ⟨[]⟩

def exampleJobsC6 : List Job := [⟨"R", "C", none, none⟩]

def exampleGraphX : WeightedGraph :=
  match build_graph ["java", "java", "x"] exampleJobsC6 with
  | Except.ok g => g
  | Except.error _ => ⟨[]⟩

def exampleGraphY : WeightedGraph :=
  match build_graph ["x", "java", "java"] exampleJobsC6 with
  | Except.ok g => g
  | Except.error _ => ⟨[]⟩

def exampleJobsW : List Job :=
  [⟨"Dev", "Acme", some "java and python", none⟩,
   ⟨"Ops", "Beta", none, some "nothing relevant"⟩]

def exampleGraphW1 : WeightedGraph :=
  match build_graph ["java", "python"] exampleJobsW with
  | Except.ok g => g
  | Except.error _ => ⟨[]⟩

def exampleGraphW2 : WeightedGraph :=
  match build_graph ["python", "java"] exampleJobsW with
  | Except.ok g => g
  | Except.error _ => ⟨[]⟩

/-! ### Association-list lemmas -/

theorem dictGet?_set_self {α : Type} (d : List (String × α)) (k : String) (v : α) :
    dictGet? (dictSet d k v) k = some v := by
  induction d with
  | nil => simp [dictSet, dictGet?]
  | cons p rest ih =>
    by_cases h : p.1 = k
    · simp [dictSet, dictGet?, h]
    · simpa [dictSet, dictGet?, h] using ih

theorem dictGet?_set_ne {α : Type} (d : List (String × α)) (k k' : String) (v : α)
    (h : k' ≠ k) : dictGet? (dictSet d k v) k' = dictGet? d k' := by
  have h2 : ¬(k = k') := fun hh => h hh.symm
  induction d with
  | nil => simp [dictSet, dictGet?, h2]
  | cons p rest ih =>
    by_cases hk : p.1 = k
    · subst hk
      simp [dictSet, dictGet?, h2]
    · simp [dictSet, dictGet?, hk, ih]

theorem dictGet?_append_some {α : Type} (d1 d2 : List (String × α)) (k : String)
    (v : α) (h : dictGet? d1 k = some v) : dictGet? (d1 ++ d2) k = some v := by
  induction d1 with
  | nil => simp [dictGet?] at h
  | cons p rest ih =>
    by_cases hk : p.1 = k
    · simp [dictGet?, hk] at h ⊢
      exact h
    · simp [dictGet?, hk] at h ⊢
      exact ih h

theorem dictGet?_append_none {α : Type} (d1 d2 : List (String × α)) (k : String)
    (h : dictGet? d1 k = none) : dictGet? (d1 ++ d2) k = dictGet? d2 k := by
  induction d1 with
  | nil => simp
  | cons p rest ih =>
    by_cases hk : p.1 = k
    · simp [dictGet?, hk] at h
    · simp [dictGet?, hk] at h ⊢
      exact ih h

theorem dictGet?_mapVal {α β : Type} (l : List (String × α)) (f : String → α → β)
    (k : String) :
    dictGet? (l.map fun p => (p.1, f p.1 p.2)) k = (dictGet? l k).map (f k) := by
  induction l with
  | nil => simp [dictGet?]
  | cons p rest ih =>
    by_cases hk : p.1 = k
    · subst hk
      simp [dictGet?]
    · simp [dictGet?, hk, ih]

theorem hasKey_iff_mem {α : Type} (d : List (String × α)) (k : String) :
    hasKey d k = true ↔ k ∈ d.map Prod.fst := by
  induction d with
  | nil => simp [hasKey, dictGet?]
  | cons p rest ih =>
    by_cases hk : p.1 = k
    · simp [hasKey, dictGet?, hk]
    · simp only [hasKey, dictGet?] at ih ⊢
      simp [hk, ih, Ne.symm hk]

theorem hasKey_of_get_some {α : Type} {d : List (String × α)} {k : String} {v : α}
    (h : dictGet? d k = some v) : hasKey d k = true := by
  simp [hasKey, h]

/-! ### Transport lemmas for the graph operations -/

theorem add_vertex_of_hasKey {g : WeightedGraph} {item : String} (kind : String)
    (h : hasKey g.vertices item = true) : add_vertex g item kind = g := by
  simp [add_vertex, h]

theorem hasKey_add_vertex (g : WeightedGraph) (i k x : String) :
    hasKey (add_vertex g i k).vertices x = (hasKey g.vertices x || x == i) := by
  unfold add_vertex
  by_cases hp : hasKey g.vertices i = true
  · rw [if_pos hp]
    by_cases hx : x = i
    · subst hx
      simp [hp]
    · simp [hx]
  · rw [if_neg hp]
    simp only [hasKey] at hp ⊢
    cases hv : dictGet? g.vertices x with
    | some v => simp [dictGet?_append_some _ _ _ _ hv, hv]
    | none =>
      rw [dictGet?_append_none _ _ _ hv]
      by_cases hx : x = i
      · subst hx
        simp [dictGet?, hv]
      · have hix : ¬i = x := fun hh => hx hh.symm
        simp [dictGet?, hv, hx, hix]

theorem kindsOf_add_vertex (g : WeightedGraph) (i k : String) :
    kindsOf (add_vertex g i k) =
      if hasKey g.vertices i = true then kindsOf g else kindsOf g ++ [(i, k)] := by
  unfold add_vertex
  by_cases hp : hasKey g.vertices i = true
  · simp [hp]
  · simp [hp, kindsOf]

theorem dictGet?_add_vertex (g : WeightedGraph) (i k x : String) :
    dictGet? (add_vertex g i k).vertices x =
      if hasKey g.vertices i = true then dictGet? g.vertices x
      else if hasKey g.vertices x = true then dictGet? g.vertices x
      else if x = i then some ⟨i, k, []⟩ else none := by
  unfold add_vertex
  by_cases hp : hasKey g.vertices i = true
  · rw [if_pos hp, if_pos hp]
  · rw [if_neg hp, if_neg hp]
    by_cases hx : hasKey g.vertices x = true
    · rw [if_pos hx]
      simp only [hasKey] at hx
      cases hv : dictGet? g.vertices x with
      | some v => simp [dictGet?_append_some _ _ _ _ hv, hv]
      | none => simp [hv] at hx
    · rw [if_neg hx]
      simp only [hasKey] at hx
      cases hv : dictGet? g.vertices x with
      | some v => simp [hv] at hx
      | none =>
        rw [dictGet?_append_none _ _ _ hv]
        by_cases hxi : x = i
        · subst hxi
          simp [dictGet?]
        · have hix : ¬i = x := fun hh => hxi hh.symm
          simp [dictGet?, hxi, hix]

theorem NbP_add_vertex {g : WeightedGraph} (h : NbP g) (i k : String) :
    NbP (add_vertex g i k) := by
  intro key v hv nk hnk
  rw [dictGet?_add_vertex] at hv
  rw [hasKey_add_vertex]
  by_cases hp : hasKey g.vertices i = true
  · simp only [hp, if_true] at hv
    simp [h key v hv nk hnk]
  · simp only [hp, if_false] at hv
    by_cases hx : hasKey g.vertices key = true
    · simp only [hx, if_true] at hv
      simp [h key v hv nk hnk]
    · simp only [hx, if_false] at hv
      by_cases hxi : key = i
      · simp only [hxi, if_true] at hv
        cases hv
        simp [dictGet?] at hnk
      · simp [hxi] at hv

theorem get_weight_add_vertex {g : WeightedGraph} (h : NbP g) (i k a b : String) :
    get_weight (add_vertex g i k) a b = get_weight g a b := by
  by_cases hp : hasKey g.vertices i = true
  · rw [add_vertex_of_hasKey _ hp]
  · unfold get_weight
    rw [dictGet?_add_vertex, dictGet?_add_vertex, if_neg hp, if_neg hp]
    cases hva : dictGet? g.vertices a with
    | some va =>
      have ha : hasKey g.vertices a = true := hasKey_of_get_some hva
      rw [if_pos ha]
      cases hvb : dictGet? g.vertices b with
      | some vb =>
        have hb : hasKey g.vertices b = true := hasKey_of_get_some hvb
        rw [if_pos hb]
      | none =>
        have hb : ¬hasKey g.vertices b = true := by simp [hasKey, hvb]
        rw [if_neg hb]
        by_cases hbi : b = i
        · rw [if_pos hbi]
          cases hnb : dictGet? va.neighbours b with
          | none => simp [hnb]
          | some w =>
            have hbk := h a va hva b (by simp [hnb])
            exact absurd hbk hb
        · rw [if_neg hbi]
    | none =>
      have ha : ¬hasKey g.vertices a = true := by simp [hasKey, hva]
      rw [if_neg ha]
      by_cases hai : a = i
      · rw [if_pos hai]
        by_cases hb : hasKey g.vertices b = true
        · rw [if_pos hb]
          cases hvb : dictGet? g.vertices b with
          | some vb => simp [dictGet?]
          | none => simp [hasKey, hvb] at hb
        · rw [if_neg hb]
          by_cases hbi : b = i
          · rw [if_pos hbi]
            simp [dictGet?]
          · rw [if_neg hbi]
      · rw [if_neg hai]

theorem vertices_fst_setNb (g : WeightedGraph) (a b : String) (w : Int) :
    (setNb g a b w).vertices.map Prod.fst = g.vertices.map Prod.fst := by
  simp [setNb]

theorem kindsOf_setNb (g : WeightedGraph) (a b : String) (w : Int) :
    kindsOf (setNb g a b w) = kindsOf g := by
  simp only [kindsOf, setNb, List.map_map]
  apply List.map_congr_left
  intro p _
  by_cases h : p.1 = a <;> simp [h]

theorem dictGet?_setNb (g : WeightedGraph) (a b : String) (w : Int) (x : String) :
    dictGet? (setNb g a b w).vertices x =
      (dictGet? g.vertices x).map fun v =>
        if x == a then { v with neighbours := dictSet v.neighbours b w } else v := by
  unfold setNb
  exact dictGet?_mapVal g.vertices
    (fun k v => if k == a then { v with neighbours := dictSet v.neighbours b w } else v) x

theorem hasKey_setNb (g : WeightedGraph) (a b : String) (w : Int) (x : String) :
    hasKey (setNb g a b w).vertices x = hasKey g.vertices x := by
  simp only [hasKey, dictGet?_setNb]
  cases dictGet? g.vertices x <;> simp

theorem add_edge_ok_inv {g g' : WeightedGraph} {i1 i2 : String} {w : Int}
    (h : add_edge g i1 i2 w = Except.ok g') :
    hasKey g.vertices i1 = true ∧ hasKey g.vertices i2 = true ∧
      g' = setNb (setNb g i1 i2 w) i2 i1 w := by
  unfold add_edge at h
  by_cases hc : (hasKey g.vertices i1 && hasKey g.vertices i2) = true
  · rw [if_pos hc] at h
    cases h
    simp only [Bool.and_eq_true] at hc
    exact ⟨hc.1, hc.2, rfl⟩
  · rw [if_neg hc] at h
    cases h

theorem add_edge_error {g : WeightedGraph} {i1 i2 : String} (w : Int)
    (h : ¬(hasKey g.vertices i1 = true ∧ hasKey g.vertices i2 = true)) :
    add_edge g i1 i2 w = Except.error () := by
  unfold add_edge
  rw [if_neg]
  simpa [Bool.and_eq_true] using h

theorem add_edge_ok {g : WeightedGraph} {i1 i2 : String} (w : Int)
    (h1 : hasKey g.vertices i1 = true) (h2 : hasKey g.vertices i2 = true) :
    add_edge g i1 i2 w = Except.ok (setNb (setNb g i1 i2 w) i2 i1 w) := by
  unfold add_edge
  rw [if_pos]
  simp [h1, h2]

theorem hasKey_add_edge {g g' : WeightedGraph} {i1 i2 : String} {w : Int}
    (h : add_edge g i1 i2 w = Except.ok g') (x : String) :
    hasKey g'.vertices x = hasKey g.vertices x := by
  obtain ⟨-, -, rfl⟩ := add_edge_ok_inv h
  rw [hasKey_setNb, hasKey_setNb]

theorem kindsOf_add_edge {g g' : WeightedGraph} {i1 i2 : String} {w : Int}
    (h : add_edge g i1 i2 w = Except.ok g') : kindsOf g' = kindsOf g := by
  obtain ⟨-, -, rfl⟩ := add_edge_ok_inv h
  rw [kindsOf_setNb, kindsOf_setNb]

theorem get_weight_add_edge {g g' : WeightedGraph} {i1 i2 : String} {w : Int}
    (h : add_edge g i1 i2 w = Except.ok g') (a b : String) :
    get_weight g' a b =
      if (a = i1 ∧ b = i2) ∨ (a = i2 ∧ b = i1) then w else get_weight g a b := by
  obtain ⟨h1, h2, rfl⟩ := add_edge_ok_inv h
  unfold get_weight
  rw [dictGet?_setNb, dictGet?_setNb, dictGet?_setNb, dictGet?_setNb]
  cases hva : dictGet? g.vertices a with
  | none =>
    have hcond : ¬((a = i1 ∧ b = i2) ∨ (a = i2 ∧ b = i1)) := by
      rintro (⟨rfl, rfl⟩ | ⟨rfl, rfl⟩)
      · simp [hasKey, hva] at h1
      · simp [hasKey, hva] at h2
    rw [if_neg hcond]
    simp
  | some va =>
    cases hvb : dictGet? g.vertices b with
    | none =>
      have hcond : ¬((a = i1 ∧ b = i2) ∨ (a = i2 ∧ b = i1)) := by
        rintro (⟨rfl, rfl⟩ | ⟨rfl, rfl⟩)
        · simp [hasKey, hvb] at h2
        · simp [hasKey, hvb] at h1
      rw [if_neg hcond]
      simp
    | some vb =>
      by_cases hcond : (a = i1 ∧ b = i2) ∨ (a = i2 ∧ b = i1)
      · rw [if_pos hcond]
        rcases hcond with ⟨rfl, rfl⟩ | ⟨rfl, rfl⟩
        · by_cases hab : a = b
          · subst hab
            simp [dictGet?_set_self]
          · have h1b : (a == b) = false := by simp [hab]
            simp [h1b, dictGet?_set_self]
        · simp [dictGet?_set_self]
      · rw [if_neg hcond]
        have hb2 : a = i1 → ¬b = i2 := fun u v => hcond (Or.inl ⟨u, v⟩)
        have hb1 : a = i2 → ¬b = i1 := fun u v => hcond (Or.inr ⟨u, v⟩)
        by_cases ha1 : a = i1 <;> by_cases ha2 : a = i2
        · have hc1 : (a == i1) = true := by simp [ha1]
          have hc2 : (a == i2) = true := by simp [ha2]
          simp [hc1, hc2, dictGet?_set_ne _ _ _ _ (hb1 ha2),
            dictGet?_set_ne _ _ _ _ (hb2 ha1)]
        · have hc1 : (a == i1) = true := by simp [ha1]
          have hc2 : (a == i2) = false := by simp [ha2]
          simp [hc1, hc2, dictGet?_set_ne _ _ _ _ (hb2 ha1)]
        · have hc1 : (a == i1) = false := by simp [ha1]
          have hc2 : (a == i2) = true := by simp [ha2]
          simp [hc1, hc2, dictGet?_set_ne _ _ _ _ (hb1 ha2)]
        · have hc1 : (a == i1) = false := by simp [ha1]
          have hc2 : (a == i2) = false := by simp [ha2]
          simp [hc1, hc2]

theorem isSome_dictSet {d : List (String × Int)} {k x : String} {v : Int}
    (h : (dictGet? (dictSet d k v) x).isSome = true) :
    x = k ∨ (dictGet? d x).isSome = true := by
  by_cases hx : x = k
  · exact Or.inl hx
  · rw [dictGet?_set_ne _ _ _ _ hx] at h
    exact Or.inr h

theorem NbP_add_edge {g g' : WeightedGraph} {i1 i2 : String} {w : Int}
    (hN : NbP g) (h : add_edge g i1 i2 w = Except.ok g') : NbP g' := by
  obtain ⟨h1, h2, hg⟩ := add_edge_ok_inv h
  intro k v hv nk hnk
  rw [hasKey_add_edge h]
  rw [hg, dictGet?_setNb, dictGet?_setNb] at hv
  cases hvk : dictGet? g.vertices k with
  | none => simp [hvk] at hv
  | some vk =>
    simp only [hvk, Option.map_some, Option.some.injEq] at hv
    have hvk0 : ∀ x, (dictGet? vk.neighbours x).isSome = true →
        hasKey g.vertices x = true := fun x hx => hN k vk hvk x hx
    have step2 : ∀ d : List (String × Int),
        (∀ x, (dictGet? d x).isSome = true → hasKey g.vertices x = true) →
        ∀ x, (dictGet? (dictSet d i2 w) x).isSome = true →
          hasKey g.vertices x = true := by
      intro d hd x hx
      rcases isSome_dictSet hx with rfl | hx2
      · exact h2
      · exact hd x hx2
    have step1 : ∀ d : List (String × Int),
        (∀ x, (dictGet? d x).isSome = true → hasKey g.vertices x = true) →
        ∀ x, (dictGet? (dictSet d i1 w) x).isSome = true →
          hasKey g.vertices x = true := by
      intro d hd x hx
      rcases isSome_dictSet hx with rfl | hx2
      · exact h1
      · exact hd x hx2
    cases hc1 : (k == i1) <;> cases hc2 : (k == i2) <;>
      simp only [hc1, hc2, Bool.false_eq_true, if_true, if_false] at hv <;>
      cases hv.symm
    · exact hvk0 nk hnk
    · exact step1 _ hvk0 nk hnk
    · exact step2 _ hvk0 nk hnk
    · exact step1 _ (step2 _ hvk0) nk hnk


theorem NbP_empty : NbP ⟨[]⟩ := by
  intro k v hv
  simp [dictGet?] at hv

theorem SymW_empty : SymW ⟨[]⟩ := by
  intro a b
  simp [get_weight, dictGet?]

theorem applyOp_inv (g : WeightedGraph) (op : GraphOp) (h1 : NbP g) (h2 : SymW g) :
    NbP (applyOp g op) ∧ SymW (applyOp g op) := by
  cases op with
  | addV i k =>
    have hred : applyOp g (GraphOp.addV i k) = add_vertex g i k := rfl
    rw [hred]
    refine ⟨NbP_add_vertex h1 i k, fun a b => ?_⟩
    rw [get_weight_add_vertex h1, get_weight_add_vertex h1]
    exact h2 a b
  | addE x y w =>
    cases he : add_edge g x y w with
    | ok g2 =>
      have hred : applyOp g (GraphOp.addE x y w) = g2 := by simp [applyOp, he]
      rw [hred]
      refine ⟨NbP_add_edge h1 he, fun a b => ?_⟩
      rw [get_weight_add_edge he a b, get_weight_add_edge he b a]
      by_cases hc : (a = x ∧ b = y) ∨ (a = y ∧ b = x)
      · rw [if_pos hc, if_pos (by tauto)]
      · rw [if_neg hc, if_neg (by tauto)]
        exact h2 a b
    | error e =>
      have hred : applyOp g (GraphOp.addE x y w) = g := by simp [applyOp, he]
      rw [hred]
      exact ⟨h1, h2⟩

theorem foldl_applyOp_inv (ops : List GraphOp) :
    ∀ g, NbP g → SymW g → NbP (ops.foldl applyOp g) ∧ SymW (ops.foldl applyOp g) := by
  induction ops with
  | nil => exact fun g h1 h2 => ⟨h1, h2⟩
  | cons op rest ih =>
    intro g h1 h2
    obtain ⟨h1', h2'⟩ := applyOp_inv g op h1 h2
    simpa [List.foldl] using ih _ h1' h2'

theorem SymW_runOps (ops : List GraphOp) : SymW (runOps ops) :=
  (foldl_applyOp_inv ops ⟨[]⟩ NbP_empty SymW_empty).2

theorem NbP_runOps (ops : List GraphOp) : NbP (runOps ops) :=
  (foldl_applyOp_inv ops ⟨[]⟩ NbP_empty SymW_empty).1


/-! ### String lemmas: the fallback marker and the sort key -/

theorem listStartsWith_append (l t : List Char) :
    listStartsWith (l ++ t) l = true := by
  induction l with
  | nil => cases t <;> rfl
  | cons c cs ih => simp [listStartsWith, ih]

theorem containsSubstr_append (pre pat : List Char) :
    containsSubstr pat (pre ++ pat) = true := by
  induction pre with
  | nil =>
    cases hp : pat with
    | nil => rfl
    | cons c cs =>
      have := listStartsWith_append pat []
      simp only [List.append_nil] at this
      simp [hp] at this
      simp [containsSubstr, this]
  | cons c cs ih =>
    simp [containsSubstr, ih]

theorem data_append (a b : String) : (a ++ b).data = a.data ++ b.data := rfl

theorem containsMarkerB_fallbackLabel (s : String) :
    containsMarkerB (fallbackLabel s) = true := by
  unfold containsMarkerB fallbackLabel
  rw [data_append]
  have hsp : (" [Low Match]").data = [' '] ++ "[Low Match]".data := by decide
  rw [hsp, ← List.append_assoc]
  exact containsSubstr_append (s.data ++ [' ']) _

theorem strLeB_total (l1 l2 : List Char) :
    strLeB l1 l2 = true ∨ strLeB l2 l1 = true := by
  induction l1 generalizing l2 with
  | nil => exact Or.inl rfl
  | cons a as ih =>
    cases l2 with
    | nil => exact Or.inr rfl
    | cons b bs =>
      by_cases hab : a.toNat = b.toNat
      · have h1 : (a.toNat == b.toNat) = true := by simp [hab]
        have h2 : (b.toNat == a.toNat) = true := by simp [hab]
        rcases ih bs with h | h
        · exact Or.inl (by simp [strLeB, h1, h])
        · exact Or.inr (by simp [strLeB, h2, h])
      · have hba : ¬b.toNat = a.toNat := fun hh => hab hh.symm
        have h1 : (a.toNat == b.toNat) = false := by simp [hab]
        have h2 : (b.toNat == a.toNat) = false := by simp [hba]
        rcases Nat.lt_or_ge a.toNat b.toNat with h | h
        · exact Or.inl (by simp [strLeB, h1, h])
        · have : b.toNat < a.toNat := lt_of_le_of_ne h (fun hh => hab hh.symm)
          exact Or.inr (by simp [strLeB, h2, this])

theorem strLeB_trans {l1 l2 l3 : List Char} (h1 : strLeB l1 l2 = true)
    (h2 : strLeB l2 l3 = true) : strLeB l1 l3 = true := by
  induction l1 generalizing l2 l3 with
  | nil => rfl
  | cons a as ih =>
    cases l2 with
    | nil => simp [strLeB] at h1
    | cons b bs =>
      cases l3 with
      | nil => simp [strLeB] at h2
      | cons c cs =>
        simp only [strLeB] at h1 h2 ⊢
        by_cases hab : a.toNat = b.toNat
        · by_cases hbc : b.toNat = c.toNat
          · have hac : a.toNat = c.toNat := hab.trans hbc
            simp only [hab, hbc, hac, beq_self_eq_true, if_true] at h1 h2 ⊢
            exact ih h1 h2
          · have hb : (b.toNat == c.toNat) = false := by simp [hbc]
            rw [if_neg (by simp [hbc])] at h2
            have hlt : b.toNat < c.toNat := by
              have := of_decide_eq_true h2
              omega
            have hac : ¬a.toNat = c.toNat := by omega
            rw [if_neg (by simp [hac])]
            apply decide_eq_true
            omega
        · rw [if_neg (by simp [hab])] at h1
          have hlt : a.toNat < b.toNat := by
            have := of_decide_eq_true h1
            omega
          by_cases hbc : b.toNat = c.toNat
          · have hac : ¬a.toNat = c.toNat := by omega
            rw [if_neg (by simp [hac])]
            apply decide_eq_true
            omega
          · rw [if_neg (by simp [hbc])] at h2
            have hlt2 : b.toNat < c.toNat := by
              have := of_decide_eq_true h2
              omega
            have hac : ¬a.toNat = c.toNat := by omega
            rw [if_neg (by simp [hac])]
            apply decide_eq_true
            omega


theorem strLeB_refl (l : List Char) : strLeB l l = true := by
  induction l with
  | nil => rfl
  | cons a as ih => simp [strLeB, ih]

theorem keyLeB_false {a b : String × Int} (h : keyLeB a b = false) :
    keyLeB b a = true := by
  unfold keyLeB at h ⊢
  by_cases hm : containsMarkerB a.1 = containsMarkerB b.1
  · rw [if_pos (by simp [hm])] at h
    rw [if_pos (by simp [hm.symm])]
    by_cases hs : a.2 = b.2
    · rw [if_pos (by simp [hs])] at h
      rw [if_pos (by simp [hs.symm])]
      rcases strLeB_total b.1.data a.1.data with h2 | h2
      · exact h2
      · exact absurd h2 (by simp [h])
    · rw [if_neg (by simp [hs])] at h
      have hsba : ¬b.2 = a.2 := fun hh => hs hh.symm
      rw [if_neg (by simp [hsba])]
      have hnlt : ¬b.2 < a.2 := of_decide_eq_false h
      exact decide_eq_true (by omega)
  · rw [if_neg (by simp [hm])] at h
    have hm2 : ¬containsMarkerB b.1 = containsMarkerB a.1 := fun hh => hm hh.symm
    rw [if_neg (by simp [hm2])]
    cases hma : containsMarkerB a.1
    · exact absurd (hma.trans h.symm) hm
    · rfl

theorem keyLeB_total (a b : String × Int) : keyLeB a b = true ∨ keyLeB b a = true := by
  by_cases h : keyLeB a b = true
  · exact Or.inl h
  · exact Or.inr (keyLeB_false (by simpa using h))

theorem keyLeB_trans {a b c : String × Int} (h1 : keyLeB a b = true)
    (h2 : keyLeB b c = true) : keyLeB a c = true := by
  unfold keyLeB at h1 h2 ⊢
  by_cases hab : containsMarkerB a.1 = containsMarkerB b.1
  · rw [if_pos (by simp [hab])] at h1
    by_cases hbc : containsMarkerB b.1 = containsMarkerB c.1
    · rw [if_pos (by simp [hbc])] at h2
      rw [if_pos (by simp [hab.trans hbc])]
      by_cases hs1 : a.2 = b.2
      · rw [if_pos (by simp [hs1])] at h1
        by_cases hs2 : b.2 = c.2
        · rw [if_pos (by simp [hs2])] at h2
          rw [if_pos (by simp [hs1.trans hs2])]
          exact strLeB_trans h1 h2
        · rw [if_neg (by simp [hs2])] at h2
          have hlt : c.2 < b.2 := of_decide_eq_true h2
          have hne : ¬a.2 = c.2 := by omega
          rw [if_neg (by simp [hne])]
          exact decide_eq_true (by omega)
      · rw [if_neg (by simp [hs1])] at h1
        have hlt : b.2 < a.2 := of_decide_eq_true h1
        by_cases hs2 : b.2 = c.2
        · have hne : ¬a.2 = c.2 := by omega
          rw [if_neg (by simp [hne])]
          exact decide_eq_true (by omega)
        · rw [if_neg (by simp [hs2])] at h2
          have hlt2 : c.2 < b.2 := of_decide_eq_true h2
          have hne : ¬a.2 = c.2 := by omega
          rw [if_neg (by simp [hne])]
          exact decide_eq_true (by omega)
    · rw [if_neg (by simp [hbc])] at h2
      have hac : ¬containsMarkerB a.1 = containsMarkerB c.1 := by
        rw [hab]
        exact hbc
      rw [if_neg (by simp [hac])]
      exact h2
  · rw [if_neg (by simp [hab])] at h1
    by_cases hbc : containsMarkerB b.1 = containsMarkerB c.1
    · have hac : ¬containsMarkerB a.1 = containsMarkerB c.1 := by
        rw [← hbc]
        exact hab
      rw [if_neg (by simp [hac])]
      rw [← hbc]
      exact h1
    · rw [if_neg (by simp [hbc])] at h2
      exact absurd (h1.trans h2.symm) hbc

instance keyLeIsTotal : IsTotal (String × Int) keyLe :=
  ⟨fun a b => keyLeB_total a b⟩

instance keyLeIsTrans : IsTrans (String × Int) keyLe :=
  ⟨fun _ _ _ h1 h2 => keyLeB_trans h1 h2⟩


/-! ### Structure of `recommend_jobs` -/

theorem filterMap_congr {α β : Type} {l : List α} {f g : α → Option β}
    (h : ∀ x ∈ l, f x = g x) : l.filterMap f = l.filterMap g := by
  induction l with
  | nil => rfl
  | cons a rest ih =>
    rw [List.filterMap_cons, List.filterMap_cons, h a (by simp),
      ih fun x hx => h x (by simp [hx])]

theorem filterMap_const_none {α β : Type} (l : List α) :
    l.filterMap (fun _ => (none : Option β)) = [] := by
  induction l with
  | nil => rfl
  | cons a rest ih => rw [List.filterMap_cons, ih]

theorem recommend_jobs_def (g : WeightedGraph) (skills : List String) (limit : Nat) :
    recommend_jobs g skills limit =
      if (List.insertionSort keyLe (keptScores g skills)).length < limit then
        (backfill ((List.insertionSort keyLe (keptScores g skills)).map Prod.fst) limit
          (get_all_vertices g "job")
          (List.insertionSort keyLe (keptScores g skills))).take limit
      else (List.insertionSort keyLe (keptScores g skills)).take limit := rfl

theorem backfill_eq (added : List String) (limit : Nat) :
    ∀ (js : List String) (acc : List (String × Int)), acc.length < limit →
      backfill added limit js acc =
        (acc ++ (js.filter fun j => !added.contains j).map fun j =>
          (j, (1 : Int))).take limit := by
  intro js
  induction js with
  | nil =>
    intro acc hlt
    simp [backfill, List.take_of_length_le (Nat.le_of_lt hlt)]
  | cons j rest ih =>
    intro acc hlt
    by_cases hc : added.contains j = true
    · have hne : ((if added.contains j = true then acc else acc ++ [(j, 1)]).length
          == limit) = false := by
        rw [if_pos hc]
        simp
        omega
      unfold backfill
      rw [if_pos hc] at hne ⊢
      simp only [hne, Bool.false_eq_true, if_false]
      rw [ih acc hlt]
      have hmem : j ∈ added := by simpa using hc
      rw [List.filter_cons_of_neg (by simp [hmem])]
    · have hcf : added.contains j = false := by simpa using hc
      unfold backfill
      rw [if_neg hc]
      by_cases hl : (acc ++ [(j, 1)]).length = limit
      · have hbeq : ((acc ++ [(j, (1 : Int))]).length == limit) = true := by simp [hl]
        simp only [hbeq, if_true]
        rw [List.filter_cons_of_pos (by simpa using hcf), List.map_cons]
        have : acc ++ (j, (1 : Int)) ::
            ((rest.filter fun x => !added.contains x).map fun x => (x, (1 : Int))) =
            (acc ++ [(j, (1 : Int))]) ++
              ((rest.filter fun x => !added.contains x).map fun x => (x, (1 : Int))) := by
          simp
        rw [this, ← hl, List.take_left]
      · have hl2 : ¬acc.length + 1 = limit := by simpa using hl
        have hbeq : ((acc ++ [(j, (1 : Int))]).length == limit) = false := by
          simp
          omega
        simp only [hbeq, Bool.false_eq_true, if_false]
        have hlt2 : (acc ++ [(j, (1 : Int))]).length < limit := by
          simp at hl ⊢
          omega
        rw [ih _ hlt2]
        rw [List.filter_cons_of_pos (by simpa using hcf), List.map_cons]
        simp

theorem totalWeight_nil_skills (g : WeightedGraph) (job : String) :
    totalWeight g [] job = 0 := by
  simp [totalWeight]

theorem keptScores_nil_skills (g : WeightedGraph) : keptScores g [] = [] := by
  unfold keptScores
  rw [filterMap_congr (g := fun _ => none), filterMap_const_none]
  intro x _
  simp [totalWeight_nil_skills]

theorem recommend_jobs_nil_skills (g : WeightedGraph) (limit : Nat) :
    recommend_jobs g [] limit =
      ((get_all_vertices g "job").map fun j => (j, (1 : Int))).take limit := by
  rw [recommend_jobs_def, keptScores_nil_skills]
  cases limit with
  | zero => simp
  | succ n =>
    rw [if_pos (by simp)]
    rw [backfill_eq _ _ _ _ (by simp)]
    simp [List.take_take]


theorem mem_keptScores_iff {g : WeightedGraph} {skills : List String}
    {e : String × Int} :
    e ∈ keptScores g skills ↔
      e.1 ∈ get_all_vertices g "job" ∧ 0 < totalWeight g skills e.1 ∧
        e.2 = totalWeight g skills e.1 := by
  unfold keptScores
  rw [List.mem_filterMap]
  constructor
  · rintro ⟨j, hj, hsome⟩
    have hsome2 : (if 0 < totalWeight g skills j then
        some (j, totalWeight g skills j) else none) = some e := hsome
    by_cases ht : 0 < totalWeight g skills j
    · rw [if_pos ht] at hsome2
      cases hsome2
      exact ⟨hj, ht, rfl⟩
    · rw [if_neg ht] at hsome2
      cases hsome2
  · rintro ⟨h1, h2, h3⟩
    refine ⟨e.1, h1, ?_⟩
    show (if 0 < totalWeight g skills e.1 then
      some (e.1, totalWeight g skills e.1) else none) = some e
    rw [if_pos h2, ← h3]

theorem pairwise_of_fact {α : Type} {l : List α} {P : α → Prop} {R : α → α → Prop}
    (hP : ∀ e ∈ l, P e) (hR : ∀ e1 e2, P e1 → P e2 → R e1 e2) : l.Pairwise R := by
  induction l with
  | nil => exact List.Pairwise.nil
  | cons a rest ih =>
    refine List.Pairwise.cons ?_ (ih fun e he => hP e (by simp [he]))
    intro b hb
    exact hR a b (hP a (by simp)) (hP b (by simp [hb]))

theorem pairwise_split {α : Type} {R : α → α → Prop} {L l1 l2 l3 : List α} {a b : α}
    (hp : L.Pairwise R) (he : L = l1 ++ a :: l2 ++ b :: l3) : R a b := by
  subst he
  induction l1 with
  | nil =>
    rcases List.pairwise_cons.mp hp with ⟨hrel, -⟩
    exact hrel b (by simp)
  | cons x xs ih =>
    exact ih (List.pairwise_cons.mp hp).2

theorem pairwise_rankRel_sorted (g : WeightedGraph) (skills : List String) :
    (List.insertionSort keyLe (keptScores g skills)).Pairwise (rankRel g skills) := by
  have hs : List.Pairwise keyLe (List.insertionSort keyLe (keptScores g skills)) :=
    List.sorted_insertionSort keyLe _
  refine hs.imp_of_mem ?_
  intro e1 e2 h1 h2 hle
  obtain ⟨hj1, hpos1, hsc1⟩ :=
    mem_keptScores_iff.mp ((List.mem_insertionSort keyLe).1 h1)
  obtain ⟨hj2, hpos2, hsc2⟩ :=
    mem_keptScores_iff.mp ((List.mem_insertionSort keyLe).1 h2)
  constructor
  · intro hm1 hm2
    exfalso
    unfold keyLe keyLeB at hle
    rw [if_neg (by simp [hm1, hm2])] at hle
    rw [hm2] at hle
    exact Bool.false_ne_true hle
  · intro hm hp1 hp2
    unfold keyLe keyLeB at hle
    rw [if_pos (by simp [hm])] at hle
    by_cases hs2 : e1.2 = e2.2
    · rw [if_pos (by simp [hs2])] at hle
      exact Or.inr ⟨hs2, hle⟩
    · rw [if_neg (by simp [hs2])] at hle
      exact Or.inl (of_decide_eq_true hle)

theorem recommend_jobs_split (g : WeightedGraph) (skills : List String)
    (limit : Nat) :
    ∃ fm : List (String × Int),
      recommend_jobs g skills limit =
        (List.insertionSort keyLe (keptScores g skills) ++ fm).take limit ∧
      ∀ e ∈ fm, e.1 ∈ get_all_vertices g "job" ∧ totalWeight g skills e.1 ≤ 0 := by
  rw [recommend_jobs_def]
  by_cases hlen : (List.insertionSort keyLe (keptScores g skills)).length < limit
  · rw [if_pos hlen]
    refine ⟨(((get_all_vertices g "job").filter fun j =>
      !((List.insertionSort keyLe (keptScores g skills)).map Prod.fst).contains j).map
        fun j => (j, (1 : Int))), ?_, ?_⟩
    · rw [backfill_eq _ _ _ _ hlen, List.take_take, Nat.min_self]
    · intro e he
      rw [List.mem_map] at he
      obtain ⟨j, hjf, rfl⟩ := he
      rw [List.mem_filter] at hjf
      obtain ⟨hjm, hjc⟩ := hjf
      refine ⟨hjm, ?_⟩
      by_contra hpos
      rw [not_le] at hpos
      have hkept : (j, totalWeight g skills j) ∈ keptScores g skills :=
        mem_keptScores_iff.mpr ⟨hjm, hpos, rfl⟩
      have hmaps : j ∈ (keptScores g skills).map Prod.fst :=
        List.mem_map.mpr ⟨(j, totalWeight g skills j), hkept, rfl⟩
      have hmem2 : j ∈ (List.insertionSort keyLe (keptScores g skills)).map Prod.fst := by
        have hperm := (List.perm_insertionSort keyLe (keptScores g skills)).map Prod.fst
        exact (hperm.mem_iff).mpr hmaps
      simp [hmem2] at hjc
  · rw [if_neg hlen]
    exact ⟨[], by simp, by simp⟩

theorem pairwise_rankRel_recommend (g : WeightedGraph) (skills : List String)
    (limit : Nat) :
    (recommend_jobs g skills limit).Pairwise (rankRel g skills) := by
  obtain ⟨fm, hout, hfm⟩ := recommend_jobs_split g skills limit
  rw [hout]
  refine List.Pairwise.sublist (List.take_sublist _ _) ?_
  rw [List.pairwise_append]
  refine ⟨pairwise_rankRel_sorted g skills, ?_, ?_⟩
  · refine pairwise_of_fact (P := fun e => totalWeight g skills e.1 ≤ 0)
      (fun e he => (hfm e he).2) ?_
    intro e1 e2 hP1 hP2
    constructor
    · intro _ _
      exact hP2
    · intro _ hp1 _
      exact absurd hp1 (not_lt.mpr hP1)
  · intro a ha b hb
    constructor
    · intro _ _
      exact (hfm b hb).2
    · intro _ _ hp2
      exact absurd hp2 (not_lt.mpr (hfm b hb).2)


/-! ### Claim theorems -/

/-- C5: in the output of `recommend_jobs`, whenever `e1` appears before `e2`,
a `[Low Match]`-marked `e1` is never followed by an unmarked `e2` that was
kept for a strictly positive computed score, and two entries of the same
marker group that were kept for strictly positive computed scores are ordered
by descending score with ties broken by ascending label. -/
theorem claimC5 (g : WeightedGraph) (skills : List String) (limit : Nat)
    (l1 l2 l3 : List (String × Int)) (e1 e2 : String × Int)
    (hsplit : recommend_jobs g skills limit = l1 ++ e1 :: l2 ++ e2 :: l3) :
    (containsMarkerB e1.1 = true → containsMarkerB e2.1 = false →
      totalWeight g skills e2.1 ≤ 0) ∧
    (containsMarkerB e1.1 = containsMarkerB e2.1 →
      0 < totalWeight g skills e1.1 → 0 < totalWeight g skills e2.1 →
      (e2.2 < e1.2 ∨ (e1.2 = e2.2 ∧ strLeB e1.1.data e2.1.data = true))) :=
  pairwise_split (R := rankRel g skills)
    (pairwise_rankRel_recommend g skills limit) hsplit

theorem claimC5_witness :
    recommend_jobs exampleGraphA ["python"] 5 =
      [] ++ ("B at Y", (2 : Int)) :: [] ++ ("A at X", (1 : Int)) ::
        [("C at Z [Low Match]", 1), ("C at Z", 1)] ∧
    ((containsMarkerB ("B at Y", (2 : Int)).1 = true →
        containsMarkerB ("A at X", (1 : Int)).1 = false →
        totalWeight exampleGraphA ["python"] ("A at X", (1 : Int)).1 ≤ 0) ∧
     (containsMarkerB ("B at Y", (2 : Int)).1 =
        containsMarkerB ("A at X", (1 : Int)).1 →
      0 < totalWeight exampleGraphA ["python"] ("B at Y", (2 : Int)).1 →
      0 < totalWeight exampleGraphA ["python"] ("A at X", (1 : Int)).1 →
      (("A at X", (1 : Int)).2 < ("B at Y", (2 : Int)).2 ∨
        (("B at Y", (2 : Int)).2 = ("A at X", (1 : Int)).2 ∧
          strLeB ("B at Y", (2 : Int)).1.data ("A at X", (1 : Int)).1.data = true)))) :=
  ⟨by decide,
    claimC5 exampleGraphA ["python"] 5 [] [] [("C at Z [Low Match]", 1), ("C at Z", 1)]
      ("B at Y", (2 : Int)) ("A at X", (1 : Int)) (by decide)⟩

/-- C7: for every graph reached by a sequence of `add_vertex`/`add_edge`
calls and any two items present as vertices, the weight query is symmetric. -/
theorem claimC7 (ops : List GraphOp) (a b : String)
    (ha : hasKey (runOps ops).vertices a = true)
    (hb : hasKey (runOps ops).vertices b = true) :
    get_weight (runOps ops) a b = get_weight (runOps ops) b a :=
  SymW_runOps ops a b

theorem claimC7_witness :
    hasKey (runOps [GraphOp.addV "python" "skill", GraphOp.addV "Job A" "job",
      GraphOp.addE "python" "Job A" 3]).vertices "python" = true ∧
    hasKey (runOps [GraphOp.addV "python" "skill", GraphOp.addV "Job A" "job",
      GraphOp.addE "python" "Job A" 3]).vertices "Job A" = true ∧
    get_weight (runOps [GraphOp.addV "python" "skill", GraphOp.addV "Job A" "job",
      GraphOp.addE "python" "Job A" 3]) "python" "Job A" =
    get_weight (runOps [GraphOp.addV "python" "skill", GraphOp.addV "Job A" "job",
      GraphOp.addE "python" "Job A" 3]) "Job A" "python" :=
  ⟨by decide, by decide,
    claimC7 [GraphOp.addV "python" "skill", GraphOp.addV "Job A" "job",
      GraphOp.addE "python" "Job A" 3] "python" "Job A" (by decide) (by decide)⟩

/-- C8: `add_edge` with a missing endpoint raises `ValueError` (modelled as
`Except.error ()`), never creates the missing vertex, and leaves the graph
state unchanged. -/
theorem claimC8 (g : WeightedGraph) (item1 item2 : String) (w : Int)
    (h : ¬(hasKey g.vertices item1 = true ∧ hasKey g.vertices item2 = true)) :
    add_edge g item1 item2 w = Except.error () ∧
      applyOp g (GraphOp.addE item1 item2 w) = g := by
  have he := add_edge_error w h
  exact ⟨he, by simp [applyOp, he]⟩

theorem claimC8_witness :
    ¬(hasKey exampleGraphB.vertices "python" = true ∧
      hasKey exampleGraphB.vertices "Job A" = true) ∧
    (add_edge exampleGraphB "python" "Job A" 3 = Except.error () ∧
      applyOp exampleGraphB (GraphOp.addE "python" "Job A" 3) = exampleGraphB) :=
  ⟨by decide, claimC8 exampleGraphB "python" "Job A" 3 (by decide)⟩

/-- C9: `add_vertex` on an item that is already present is a no-op: the graph
(and so the vertex set, every edge weight, and the stored kind) is unchanged,
whatever kind is passed. -/
theorem claimC9 (g : WeightedGraph) (item kind : String)
    (h : hasKey g.vertices item = true) : add_vertex g item kind = g :=
  add_vertex_of_hasKey kind h

theorem claimC9_witness :
    hasKey exampleGraphB.vertices "python" = true ∧
    add_vertex exampleGraphB "python" "job" = exampleGraphB :=
  ⟨by decide, claimC9 exampleGraphB "python" "job" (by decide)⟩


/-! ### Totality of the build phase -/

theorem hasKey_mono_add_vertex {g : WeightedGraph} {x : String}
    (h : hasKey g.vertices x = true) (i k : String) :
    hasKey (add_vertex g i k).vertices x = true := by
  rw [hasKey_add_vertex]
  simp [h]

theorem hasKey_add_vertex_self (g : WeightedGraph) (i k : String) :
    hasKey (add_vertex g i k).vertices i = true := by
  rw [hasKey_add_vertex]
  simp

theorem hasKey_foldl_mono (l : List String) :
    ∀ (g : WeightedGraph) (x : String), hasKey g.vertices x = true →
      hasKey (l.foldl (fun g s => add_vertex g (strToLower s) "skill") g).vertices x
        = true := by
  induction l with
  | nil =>
    intro g x h
    exact h
  | cons s rest ih =>
    intro g x h
    rw [List.foldl_cons]
    exact ih _ _ (hasKey_mono_add_vertex h _ _)

theorem hasKey_skillsFold (skills : List String) :
    ∀ (g : WeightedGraph), ∀ s ∈ skills,
      hasKey (skills.foldl (fun g s => add_vertex g (strToLower s) "skill") g).vertices
        (strToLower s) = true := by
  induction skills with
  | nil =>
    intro g s hs
    cases hs
  | cons s0 rest ih =>
    intro g s hs
    rw [List.foldl_cons]
    rcases List.mem_cons.mp hs with rfl | hs2
    · exact hasKey_foldl_mono rest _ _ (hasKey_add_vertex_self g _ _)
    · exact ih _ s hs2

theorem addSkillEdges_cons (g : WeightedGraph) (jobId content s : String)
    (rest : List String) :
    addSkillEdges g jobId content (s :: rest) =
      (if 0 < countOccs content (strToLower s) then
        match add_edge g (strToLower s) jobId
            ((countOccs content (strToLower s) : Nat) : Int) with
        | Except.error e => Except.error e
        | Except.ok g1 =>
          match addSkillEdges g1 jobId content rest with
          | Except.error e => Except.error e
          | Except.ok (g2, ms) =>
            Except.ok (g2, countOccs content (strToLower s) + ms)
      else addSkillEdges g jobId content rest) := rfl

theorem addSkillEdges_ok (L : List String) :
    ∀ (g : WeightedGraph) (jobId content : String),
      (∀ s ∈ L, hasKey g.vertices (strToLower s) = true) →
      hasKey g.vertices jobId = true →
      ∃ g2 ms, addSkillEdges g jobId content L = Except.ok (g2, ms) ∧
        (∀ x, hasKey g2.vertices x = hasKey g.vertices x) := by
  induction L with
  | nil =>
    intro g jobId content _ _
    exact ⟨g, 0, rfl, fun x => rfl⟩
  | cons s rest ih =>
    intro g jobId content hL hjob
    by_cases hc : 0 < countOccs content (strToLower s)
    · have he := add_edge_ok ((countOccs content (strToLower s) : Nat) : Int)
        (hL s (by simp)) hjob
      obtain ⟨g2, ms, hrec, hkeys⟩ := ih (setNb (setNb g (strToLower s) jobId
          ((countOccs content (strToLower s) : Nat) : Int)) jobId (strToLower s)
          ((countOccs content (strToLower s) : Nat) : Int))
        jobId content
        (fun t ht => by rw [hasKey_setNb, hasKey_setNb]; exact hL t (by simp [ht]))
        (by rw [hasKey_setNb, hasKey_setNb]; exact hjob)
      refine ⟨g2, countOccs content (strToLower s) + ms, ?_, ?_⟩
      · rw [addSkillEdges_cons, if_pos hc, he]
        simp only [hrec]
      · intro x
        rw [hkeys x, hasKey_setNb, hasKey_setNb]
    · obtain ⟨g2, ms, hrec, hkeys⟩ := ih g jobId content
        (fun t ht => hL t (by simp [ht])) hjob
      refine ⟨g2, ms, ?_, hkeys⟩
      rw [addSkillEdges_cons, if_neg hc]
      exact hrec

theorem processJobs_cons (g : WeightedGraph) (skills : List String) (job : Job)
    (rest : List Job) :
    processJobs g skills (job :: rest) =
      (match addSkillEdges (add_vertex g (jobLabel job) "job") (jobLabel job)
          (jobContent job) skills with
       | Except.error e => Except.error e
       | Except.ok (g2, matchScore) =>
         if matchScore == 0 then
           match skills with
           | [] => processJobs g2 skills rest
           | s0 :: _ =>
             match add_edge (add_vertex g2 (fallbackLabel (jobLabel job)) "job")
                 (strToLower s0) (fallbackLabel (jobLabel job)) 1 with
             | Except.error e => Except.error e
             | Except.ok g4 => processJobs g4 skills rest
         else processJobs g2 skills rest) := rfl

theorem processJobs_ok (skills : List String) (jobs : List Job) :
    ∀ g : WeightedGraph,
      (∀ s ∈ skills, hasKey g.vertices (strToLower s) = true) →
      ∃ G, processJobs g skills jobs = Except.ok G := by
  induction jobs with
  | nil =>
    intro g _
    exact ⟨g, rfl⟩
  | cons job rest ih =>
    intro g hsk
    have hjob : hasKey (add_vertex g (jobLabel job) "job").vertices (jobLabel job)
        = true := hasKey_add_vertex_self g _ _
    have hsk1 : ∀ s ∈ skills,
        hasKey (add_vertex g (jobLabel job) "job").vertices (strToLower s) = true :=
      fun s hs => hasKey_mono_add_vertex (hsk s hs) _ _
    obtain ⟨g2, ms, hrec, hkeys⟩ :=
      addSkillEdges_ok skills _ (jobLabel job) (jobContent job) hsk1 hjob
    have hsk2 : ∀ s ∈ skills, hasKey g2.vertices (strToLower s) = true :=
      fun s hs => by rw [hkeys]; exact hsk1 s hs
    by_cases hms : (ms == 0) = true
    · cases hskills : skills with
      | nil =>
        subst hskills
        obtain ⟨G, hG⟩ := ih g2 hsk2
        refine ⟨G, ?_⟩
        rw [processJobs_cons]
        simp only [hrec]
        rw [if_pos hms]
        exact hG
      | cons s0 srest =>
        subst hskills
        have hs0 : hasKey g2.vertices (strToLower s0) = true :=
          hsk2 s0 (by simp)
        have hs0b : hasKey (add_vertex g2 (fallbackLabel (jobLabel job)) "job").vertices
            (strToLower s0) = true := hasKey_mono_add_vertex hs0 _ _
        have hfb : hasKey (add_vertex g2 (fallbackLabel (jobLabel job)) "job").vertices
            (fallbackLabel (jobLabel job)) = true := hasKey_add_vertex_self g2 _ _
        have he := add_edge_ok (1 : Int) hs0b hfb
        obtain ⟨G, hG⟩ := ih (setNb (setNb (add_vertex g2 (fallbackLabel (jobLabel job))
            "job") (strToLower s0) (fallbackLabel (jobLabel job)) 1)
            (fallbackLabel (jobLabel job)) (strToLower s0) 1)
          (fun s hs => by
            rw [hasKey_setNb, hasKey_setNb]
            exact hasKey_mono_add_vertex (hsk2 s hs) _ _)
        refine ⟨G, ?_⟩
        rw [processJobs_cons]
        simp only [hrec]
        rw [if_pos hms]
        simp only [he]
        exact hG
    · obtain ⟨G, hG⟩ := ih g2 hsk2
      refine ⟨G, ?_⟩
      rw [processJobs_cons]
      simp only [hrec]
      rw [if_neg hms]
      exact hG

/-- C10: `build_graph` never raises: for every skill list and every posting
list (records carrying `role` and `company_name`, with both text fields
optional), it returns a graph.  In particular every internal `add_edge` call
finds both of its endpoints already present. -/
theorem claimC10 (skills : List String) (jobs : List Job) :
    ∃ g, build_graph skills jobs = Except.ok g := by
  unfold build_graph
  exact processJobs_ok skills jobs _ (fun s hs => hasKey_skillsFold skills _ s hs)


/-! ### The empty-skill-list build (C1) -/

theorem add_vertex_mem {g : WeightedGraph} {pr : String × Vertex} {i k : String}
    (h : pr ∈ (add_vertex g i k).vertices) :
    pr ∈ g.vertices ∨ pr = (i, ⟨i, k, []⟩) := by
  unfold add_vertex at h
  by_cases hp : hasKey g.vertices i = true
  · rw [if_pos hp] at h
    exact Or.inl h
  · rw [if_neg hp] at h
    rcases List.mem_append.mp h with h2 | h2
    · exact Or.inl h2
    · exact Or.inr (List.mem_singleton.mp h2)

theorem processJobs_nil_skills_vertices (jobs : List Job) :
    ∀ (g G : WeightedGraph), processJobs g [] jobs = Except.ok G →
      ∀ pr ∈ G.vertices, pr ∈ g.vertices ∨
        (pr.2.kind = "job" ∧ ∃ p ∈ jobs, pr.1 = jobLabel p) := by
  induction jobs with
  | nil =>
    intro g G h pr hpr
    injection h with h2
    subst h2
    exact Or.inl hpr
  | cons job rest ih =>
    intro g G h pr hpr
    have h2 : processJobs (add_vertex g (jobLabel job) "job") [] rest =
        Except.ok G := h
    rcases ih _ _ h2 pr hpr with hmem | ⟨hkind, p, hp, hlab⟩
    · rcases add_vertex_mem hmem with hmem2 | rfl
      · exact Or.inl hmem2
      · exact Or.inr ⟨rfl, job, by simp, rfl⟩
    · exact Or.inr ⟨hkind, p, by simp [hp], hlab⟩

/-- C1 amended: with the empty skill list, `build_graph` creates zero skill
vertices and no fallback vertices — every vertex is a job vertex labelled
`role at company` for one of the postings — but `recommend_jobs` does not
return the empty list: the backfill loop returns every job vertex paired
with synthetic score 1, in enumeration order, truncated to the limit (so the
result is empty only when there are no job vertices or the limit is 0). -/
theorem claimC1 (postings : List Job) (limit : Nat) (g : WeightedGraph)
    (hbuild : build_graph [] postings = Except.ok g) :
    get_all_vertices g "skill" = [] ∧
    (∀ pr ∈ g.vertices, pr.2.kind = "job" ∧ ∃ p ∈ postings, pr.1 = jobLabel p) ∧
    recommend_jobs g [] limit =
      ((get_all_vertices g "job").map fun j => (j, (1 : Int))).take limit := by
  have hbuild2 : processJobs (⟨[]⟩ : WeightedGraph) [] postings = Except.ok g :=
    hbuild
  have hvert : ∀ pr ∈ g.vertices, pr.2.kind = "job" ∧
      ∃ p ∈ postings, pr.1 = jobLabel p := by
    intro pr hpr
    rcases processJobs_nil_skills_vertices postings _ _ hbuild2 pr hpr with hmem | hok
    · simp at hmem
    · exact hok
  refine ⟨?_, hvert, recommend_jobs_nil_skills g limit⟩
  unfold get_all_vertices
  rw [if_pos (by decide)]
  have hnil : g.vertices.filter (fun p => p.2.kind == "skill") = [] := by
    rw [List.filter_eq_nil_iff]
    intro pr hpr
    rw [(hvert pr hpr).1]
    decide
  rw [hnil]
  rfl

theorem claimC1_counterexample :
    build_graph [] [⟨"Dev", "Acme", none, none⟩] = Except.ok exampleGraphD ∧
    0 < (5 : Nat) ∧
    recommend_jobs exampleGraphD [] 5 = [("Dev at Acme", 1)] ∧
    ¬recommend_jobs exampleGraphD [] 5 = [] :=
  ⟨rfl, by decide, by decide, by decide⟩

theorem claimC1_witness :
    build_graph [] [⟨"Dev", "Acme", none, none⟩] = Except.ok exampleGraphD ∧
    (get_all_vertices exampleGraphD "skill" = [] ∧
      (∀ pr ∈ exampleGraphD.vertices, pr.2.kind = "job" ∧
        ∃ p ∈ [(⟨"Dev", "Acme", none, none⟩ : Job)], pr.1 = jobLabel p) ∧
      recommend_jobs exampleGraphD [] 5 =
        ((get_all_vertices exampleGraphD "job").map fun j => (j, (1 : Int))).take 5) :=
  ⟨rfl, claimC1 [⟨"Dev", "Acme", none, none⟩] 5 exampleGraphD rfl⟩


/-- C2 amended: for skills `["java"]` and the single posting with
description "no relevant keywords here", `build_graph` produces exactly the
two job vertices `"Dev at Acme"` (no edges, computed score 0, excluded from
ranking) and `"Dev at Acme [Low Match]"` (connected to "java" with weight
1), and `recommend_jobs` with the default limit 5 returns the fallback entry
followed by the plain posting re-added by the backfill step with synthetic
score 1 — not the fallback entry alone. -/
theorem claimC2 :
    build_graph ["java"] [⟨"Dev", "Acme", none, some "no relevant keywords here"⟩] =
      Except.ok exampleGraphC2 ∧
    get_all_vertices exampleGraphC2 "job" =
      ["Dev at Acme", "Dev at Acme [Low Match]"] ∧
    Option.map Vertex.neighbours (dictGet? exampleGraphC2.vertices "Dev at Acme") =
      some [] ∧
    totalWeight exampleGraphC2 ["java"] "Dev at Acme" = 0 ∧
    get_weight exampleGraphC2 "java" "Dev at Acme [Low Match]" = 1 ∧
    recommend_jobs exampleGraphC2 ["java"] 5 =
      [("Dev at Acme [Low Match]", 1), ("Dev at Acme", 1)] :=
  ⟨rfl, by decide, by decide, by decide, by decide, by decide⟩

theorem claimC2_counterexample :
    build_graph ["java"] [⟨"Dev", "Acme", none, some "no relevant keywords here"⟩] =
      Except.ok exampleGraphC2 ∧
    recommend_jobs exampleGraphC2 ["java"] 5 =
      [("Dev at Acme [Low Match]", 1), ("Dev at Acme", 1)] ∧
    ¬recommend_jobs exampleGraphC2 ["java"] 5 = [("Dev at Acme [Low Match]", 1)] :=
  ⟨rfl, by decide, by decide⟩

/-- C3 amended: with a non-empty skill list, two postings with strictly
positive occurrence scores and one zero-occurrence posting, `recommend_jobs`
with limit 5 returns four entries, not three: the two positive-score jobs in
descending score order, then the `[Low Match]` fallback twin of the
zero-score posting (score 1, kept because the fallback edge gives it a
positive computed score), then the zero-score posting itself appended by the
backfill step with synthetic score 1. -/
theorem claimC3 :
    build_graph ["python"] exampleJobsA = Except.ok exampleGraphA ∧
    0 < totalWeight exampleGraphA ["python"] "A at X" ∧
    0 < totalWeight exampleGraphA ["python"] "B at Y" ∧
    totalWeight exampleGraphA ["python"] "C at Z" = 0 ∧
    recommend_jobs exampleGraphA ["python"] 5 =
      [("B at Y", 2), ("A at X", 1), ("C at Z [Low Match]", 1), ("C at Z", 1)] :=
  ⟨rfl, by decide, by decide, by decide, by decide⟩

theorem claimC3_counterexample :
    build_graph ["python"] exampleJobsA = Except.ok exampleGraphA ∧
    0 < totalWeight exampleGraphA ["python"] "A at X" ∧
    0 < totalWeight exampleGraphA ["python"] "B at Y" ∧
    totalWeight exampleGraphA ["python"] "C at Z" = 0 ∧
    (recommend_jobs exampleGraphA ["python"] 5).length = 4 ∧
    ¬(recommend_jobs exampleGraphA ["python"] 5).length = 3 :=
  ⟨rfl, by decide, by decide, by decide, by decide, by decide⟩


/-! ### The kind of every vertex of a built graph (C4) -/

theorem kindsOf_add_vertex_mem {g : WeightedGraph} {i k : String}
    {e : String × String} (h : e ∈ kindsOf (add_vertex g i k)) :
    e ∈ kindsOf g ∨ e = (i, k) := by
  rw [kindsOf_add_vertex] at h
  by_cases hp : hasKey g.vertices i = true
  · rw [if_pos hp] at h
    exact Or.inl h
  · rw [if_neg hp] at h
    rcases List.mem_append.mp h with h2 | h2
    · exact Or.inl h2
    · exact Or.inr (List.mem_singleton.mp h2)

theorem addSkillEdges_kindsOf (L : List String) :
    ∀ (g g2 : WeightedGraph) (jobId content : String) (ms : Nat),
      addSkillEdges g jobId content L = Except.ok (g2, ms) →
      kindsOf g2 = kindsOf g := by
  induction L with
  | nil =>
    intro g g2 jobId content ms h
    injection h with h2
    cases h2
    rfl
  | cons s rest ih =>
    intro g g2 jobId content ms h
    rw [addSkillEdges_cons] at h
    by_cases hc : 0 < countOccs content (strToLower s)
    · rw [if_pos hc] at h
      cases he : add_edge g (strToLower s) jobId
          ((countOccs content (strToLower s) : Nat) : Int) with
      | error e =>
        simp only [he] at h
        cases h
      | ok g1 =>
        simp only [he] at h
        cases hrec : addSkillEdges g1 jobId content rest with
        | error e =>
          simp only [hrec] at h
          cases h
        | ok pr =>
          obtain ⟨gx, msx⟩ := pr
          simp only [hrec] at h
          injection h with h2
          injection h2 with h3 h4
          subst h3
          rw [ih g1 gx jobId content msx hrec]
          exact kindsOf_add_edge he
    · rw [if_neg hc] at h
      exact ih g g2 jobId content ms h

theorem processJobs_kinds (skills : List String) (jobs : List Job) :
    ∀ (g G : WeightedGraph), processJobs g skills jobs = Except.ok G →
      ∀ e ∈ kindsOf G, e ∈ kindsOf g ∨ e.2 = "job" := by
  induction jobs with
  | nil =>
    intro g G h e he
    injection h with h2
    subst h2
    exact Or.inl he
  | cons job rest ih =>
    intro g G h e he
    rw [processJobs_cons] at h
    cases hrec : addSkillEdges (add_vertex g (jobLabel job) "job") (jobLabel job)
        (jobContent job) skills with
    | error er =>
      simp only [hrec] at h
      cases h
    | ok pr =>
      obtain ⟨gx, msx⟩ := pr
      simp only [hrec] at h
      have hk2 : kindsOf gx = kindsOf (add_vertex g (jobLabel job) "job") :=
        addSkillEdges_kindsOf skills _ _ _ _ _ hrec
      by_cases hms : (msx == 0) = true
      · rw [if_pos hms] at h
        cases hskills : skills with
        | nil =>
          subst hskills
          rcases ih _ _ h e he with hmem | hjob
          · rw [hk2] at hmem
            rcases kindsOf_add_vertex_mem hmem with hmem2 | rfl
            · exact Or.inl hmem2
            · exact Or.inr rfl
          · exact Or.inr hjob
        | cons s0 srest =>
          subst hskills
          cases he2 : add_edge (add_vertex gx (fallbackLabel (jobLabel job)) "job")
              (strToLower s0) (fallbackLabel (jobLabel job)) 1 with
          | error er =>
            simp only [he2] at h
            cases h
          | ok g4 =>
            simp only [he2] at h
            rcases ih _ _ h e he with hmem | hjob
            · rw [kindsOf_add_edge he2] at hmem
              rcases kindsOf_add_vertex_mem hmem with hmem2 | rfl
              · rw [hk2] at hmem2
                rcases kindsOf_add_vertex_mem hmem2 with hmem3 | rfl
                · exact Or.inl hmem3
                · exact Or.inr rfl
              · exact Or.inr rfl
            · exact Or.inr hjob
      · rw [if_neg hms] at h
        rcases ih _ _ h e he with hmem | hjob
        · rw [hk2] at hmem
          rcases kindsOf_add_vertex_mem hmem with hmem2 | rfl
          · exact Or.inl hmem2
          · exact Or.inr rfl
        · exact Or.inr hjob

theorem foldl_skill_kinds (skills : List String) :
    ∀ (g : WeightedGraph) (e : String × String),
      e ∈ kindsOf (skills.foldl (fun g s => add_vertex g (strToLower s) "skill") g) →
      e ∈ kindsOf g ∨ ∃ s ∈ skills, e = (strToLower s, "skill") := by
  induction skills with
  | nil =>
    intro g e he
    exact Or.inl he
  | cons s0 rest ih =>
    intro g e he
    rw [List.foldl_cons] at he
    rcases ih _ e he with hmem | ⟨s, hs, rfl⟩
    · rcases kindsOf_add_vertex_mem hmem with hmem2 | rfl
      · exact Or.inl hmem2
      · exact Or.inr ⟨s0, by simp, rfl⟩
    · exact Or.inr ⟨s, by simp [hs], rfl⟩

theorem build_graph_kinds {skills : List String} {postings : List Job}
    {g : WeightedGraph} (hbuild : build_graph skills postings = Except.ok g) :
    ∀ e ∈ kindsOf g, (∃ s ∈ skills, e = (strToLower s, "skill")) ∨ e.2 = "job" := by
  intro e he
  have hbuild2 : processJobs
      (skills.foldl (fun g s => add_vertex g (strToLower s) "skill") ⟨[]⟩)
      skills postings = Except.ok g := hbuild
  rcases processJobs_kinds skills postings _ _ hbuild2 e he with hmem | hjob
  · rcases foldl_skill_kinds skills _ e hmem with h0 | hsk
    · simp [kindsOf] at h0
    · exact Or.inl hsk
  · exact Or.inr hjob


theorem claimC4_counterexample :
    build_graph ["Dev at Acme"] [⟨"Dev", "Acme", none, none⟩] =
      Except.ok exampleGraphE ∧
    "Dev at Acme" ∈ ["Dev at Acme"] ∧
    ¬strToLower "Dev at Acme" = "Dev at Acme" ∧
    has_vertex_helper exampleGraphE "Dev at Acme" = true :=
  ⟨rfl, by decide, by decide, by decide⟩

/-- C4 amended: a skill string that is not identical to its lower-cased form
can still pass the `has_vertex_helper` membership test — but only by
colliding with the lower-casing of some skill or with a job-kind vertex's
label (such as a synthesized `role at company` label), since `build_graph`
inserts only lower-cased skill vertices; and whenever `has_vertex_helper`
does reject the skill, it is skipped by the scoring loop and contributes
zero to every job's computed score: removing it from the skill list leaves
every total weight unchanged. -/
theorem claimC4 (skills : List String) (postings : List Job) (g : WeightedGraph)
    (hbuild : build_graph skills postings = Except.ok g) (s : String)
    (hs : s ∈ skills) (hlow : ¬strToLower s = s) :
    (has_vertex_helper g s = true →
      s ∈ skills.map strToLower ∨ ∃ e ∈ kindsOf g, e.1 = s ∧ e.2 = "job") ∧
    (has_vertex_helper g s = false →
      ∀ j, totalWeight g skills j =
        totalWeight g (skills.filter fun x => !(x == s)) j) := by
  constructor
  · intro hv
    have hkey : s ∈ g.vertices.map Prod.fst := (hasKey_iff_mem _ _).mp hv
    have hkinds : s ∈ (kindsOf g).map Prod.fst := by
      have : (kindsOf g).map Prod.fst = g.vertices.map Prod.fst := by
        simp [kindsOf, List.map_map]
      rw [this]
      exact hkey
    obtain ⟨e, he, hefst⟩ := List.mem_map.mp hkinds
    rcases build_graph_kinds hbuild e he with ⟨t, ht, rfl⟩ | hjob
    · exact Or.inl (by rw [← hefst]; exact List.mem_map.mpr ⟨t, ht, rfl⟩)
    · exact Or.inr ⟨e, he, hefst, hjob⟩
  · intro hv j
    have hfun : ∀ x ∈ skills, (has_vertex_helper g x : Bool) =
        (has_vertex_helper g x && !(x == s)) := by
      intro x _
      by_cases hxs : x = s
      · subst hxs
        rw [hv]
        simp
      · simp [hxs]
    have hfilter : skills.filter (fun x => has_vertex_helper g x) =
        (skills.filter fun x => !(x == s)).filter fun x => has_vertex_helper g x := by
      rw [List.filter_filter]
      exact List.filter_congr hfun
    unfold totalWeight
    rw [hfilter]

theorem claimC4_witness :
    build_graph ["Java", "python"] [⟨"Dev", "Acme", none, some "java dev"⟩] =
      Except.ok exampleGraphF ∧
    "Java" ∈ ["Java", "python"] ∧
    ¬strToLower "Java" = "Java" ∧
    ((has_vertex_helper exampleGraphF "Java" = true →
        "Java" ∈ ["Java", "python"].map strToLower ∨
          ∃ e ∈ kindsOf exampleGraphF, e.1 = "Java" ∧ e.2 = "job") ∧
     (has_vertex_helper exampleGraphF "Java" = false →
        ∀ j, totalWeight exampleGraphF ["Java", "python"] j =
          totalWeight exampleGraphF
            (["Java", "python"].filter fun x => !(x == "Java")) j)) :=
  ⟨rfl, by decide, by decide,
    claimC4 ["Java", "python"] [⟨"Dev", "Acme", none, some "java dev"⟩]
      exampleGraphF rfl "Java" (by decide) (by decide)⟩


/-! ### Helpers for the skill-permutation analysis (C6) -/

theorem kindsOf_fst (g : WeightedGraph) :
    (kindsOf g).map Prod.fst = g.vertices.map Prod.fst := by
  simp [kindsOf, List.map_map]

theorem hasKey_kinds_mem (g : WeightedGraph) (x : String) :
    hasKey g.vertices x = true ↔ x ∈ (kindsOf g).map Prod.fst := by
  rw [kindsOf_fst]
  exact hasKey_iff_mem _ _

theorem get_weight_absent2 {g : WeightedGraph} {b : String}
    (h : hasKey g.vertices b = false) (a : String) : get_weight g a b = 0 := by
  unfold get_weight
  have hnone : dictGet? g.vertices b = none := by
    cases hv : dictGet? g.vertices b with
    | none => rfl
    | some v => simp [hasKey, hv] at h
  rw [hnone]
  cases dictGet? g.vertices a <;> rfl

theorem ne_of_marker {x y : String} (hx : containsMarkerB x = true)
    (hy : containsMarkerB y = false) : ¬x = y := by
  intro h
  rw [h, hy] at hx
  cases hx

theorem fallbackLabel_inj {a b : String} (h : fallbackLabel a = fallbackLabel b) :
    a = b := by
  unfold fallbackLabel at h
  have h2 : a.data ++ (" [Low Match]").data = b.data ++ (" [Low Match]").data := by
    rw [← data_append, ← data_append, h]
  exact String.ext (List.append_inj_left' h2 rfl)

theorem sum_indicator_nodup {S : List String} (hnd : S.Nodup) {x : String}
    (hx : x ∈ S) :
    (S.map fun s => if s = x then (1 : Int) else 0).sum = 1 := by
  induction S with
  | nil => cases hx
  | cons s0 rest ih =>
    rw [List.map_cons, List.sum_cons]
    rcases List.mem_cons.mp hx with rfl | hx2
    · rw [if_pos rfl]
      have hzero : ((rest.map fun s => if s = x then (1 : Int) else 0)).sum = 0 := by
        apply List.sum_eq_zero
        intro y hy
        obtain ⟨t, ht, rfl⟩ := List.mem_map.mp hy
        rw [if_neg]
        intro hts
        subst hts
        exact (List.nodup_cons.mp hnd).1 ht
      rw [hzero]
      omega
    · have hne : ¬s0 = x := by
        intro h0
        subst h0
        exact (List.nodup_cons.mp hnd).1 hx2
      rw [if_neg hne, ih (List.nodup_cons.mp hnd).2 hx2]
      omega

theorem hasKey_eq_of_kinds {g1 g2 : WeightedGraph} {S S2 : List String}
    {C : List (String × String)} (hperm : S.Perm S2)
    (h1 : kindsOf g1 = (S.map fun s => (s, "skill")) ++ C)
    (h2 : kindsOf g2 = (S2.map fun s => (s, "skill")) ++ C) (x : String) :
    hasKey g1.vertices x = hasKey g2.vertices x := by
  have m1 : hasKey g1.vertices x = true ↔ x ∈ S ∨ x ∈ C.map Prod.fst := by
    rw [hasKey_kinds_mem, h1]
    simp [List.map_map]
  have m2 : hasKey g2.vertices x = true ↔ x ∈ S2 ∨ x ∈ C.map Prod.fst := by
    rw [hasKey_kinds_mem, h2]
    simp [List.map_map]
  have hiff : (hasKey g1.vertices x = true) ↔ (hasKey g2.vertices x = true) := by
    rw [m1, m2, hperm.mem_iff]
  cases hk1 : hasKey g1.vertices x <;> cases hk2 : hasKey g2.vertices x <;>
    simp_all

theorem get_all_vertices_job_eq {g : WeightedGraph} {S : List String}
    {C : List (String × String)}
    (h1 : kindsOf g = (S.map fun s => (s, "skill")) ++ C)
    (hC : ∀ e ∈ C, e.2 = "job") :
    get_all_vertices g "job" = C.map Prod.fst := by
  unfold get_all_vertices
  rw [if_pos (by decide)]
  have key : (g.vertices.filter fun p => p.2.kind == "job").map Prod.fst =
      ((kindsOf g).filter fun e => e.2 == "job").map Prod.fst := by
    unfold kindsOf
    rw [List.filter_map]
    simp [List.map_map]
    rfl
  rw [key, h1, List.filter_append]
  have hskill : (S.map fun s => (s, "skill")).filter (fun e => e.2 == "job") = [] := by
    rw [List.filter_eq_nil_iff]
    intro e he
    obtain ⟨s, hs, rfl⟩ := List.mem_map.mp he
    simp
  have hjob : C.filter (fun e => e.2 == "job") = C := by
    rw [List.filter_eq_self]
    intro e he
    rw [hC e he]
    decide
  rw [hskill, hjob]
  rfl

theorem totalWeight_eq_sum {g : WeightedGraph} {S : List String}
    (hall : ∀ s ∈ S, has_vertex_helper g s = true) (j : String) :
    totalWeight g S j = (S.map fun s => get_weight g s j).sum := by
  unfold totalWeight
  rw [List.filter_eq_self.mpr hall]

theorem recommend_congr {g1 g2 : WeightedGraph} {S1 S2 : List String}
    (limit : Nat)
    (hjobs : get_all_vertices g1 "job" = get_all_vertices g2 "job")
    (hw : ∀ j ∈ get_all_vertices g1 "job",
      totalWeight g1 S1 j = totalWeight g2 S2 j) :
    recommend_jobs g1 S1 limit = recommend_jobs g2 S2 limit := by
  have hkept : keptScores g1 S1 = keptScores g2 S2 := by
    unfold keptScores
    rw [← hjobs]
    exact filterMap_congr fun j hj => by rw [hw j hj]
  rw [recommend_jobs_def, recommend_jobs_def, hkept, hjobs]


theorem addSkillEdges_spec (L : List String) :
    ∀ (g : WeightedGraph) (jobId content : String),
      (∀ s ∈ L, strToLower s = s) →
      L.Nodup →
      (∀ s ∈ L, hasKey g.vertices s = true) →
      hasKey g.vertices jobId = true →
      jobId ∉ L →
      NbP g →
      ∃ g2, addSkillEdges g jobId content L =
          Except.ok (g2, (L.map fun s => countOccs content (strToLower s)).sum) ∧
        kindsOf g2 = kindsOf g ∧
        NbP g2 ∧
        ∀ a b, get_weight g2 a b =
          if a ∈ L ∧ b = jobId ∧ 0 < countOccs content a then
            ((countOccs content a : Nat) : Int)
          else if b ∈ L ∧ a = jobId ∧ 0 < countOccs content b then
            ((countOccs content b : Nat) : Int)
          else get_weight g a b := by
  induction L with
  | nil =>
    intro g jobId content _ _ _ _ _ hN
    refine ⟨g, rfl, rfl, hN, ?_⟩
    intro a b
    rw [if_neg (by simp), if_neg (by simp)]
  | cons s rest ih =>
    intro g jobId content hlow hnd hpres hjob hnotin hN
    have hs_low : strToLower s = s := hlow s (by simp)
    have hs_pres : hasKey g.vertices s = true := hpres s (by simp)
    have hjob_notin_rest : jobId ∉ rest := fun h => hnotin (by simp [h])
    have hjob_ne_s : ¬jobId = s := fun h => hnotin (by simp [h])
    have hs_notin_rest : s ∉ rest := (List.nodup_cons.mp hnd).1
    by_cases hc : 0 < countOccs content s
    · obtain ⟨G1, hG1⟩ : ∃ G1, add_edge g s jobId
          ((countOccs content s : Nat) : Int) = Except.ok G1 :=
        ⟨_, add_edge_ok _ hs_pres hjob⟩
      obtain ⟨g2, hrec, hkinds2, hN2, hw2⟩ := ih G1 jobId content
        (fun t ht => hlow t (by simp [ht]))
        (List.nodup_cons.mp hnd).2
        (fun t ht => by
          rw [hasKey_add_edge hG1]
          exact hpres t (by simp [ht]))
        (by rw [hasKey_add_edge hG1]; exact hjob)
        hjob_notin_rest
        (NbP_add_edge hN hG1)
      refine ⟨g2, ?_, hkinds2.trans (kindsOf_add_edge hG1), hN2, ?_⟩
      · rw [addSkillEdges_cons, hs_low, if_pos hc]
        simp only [hG1, hrec]
        rw [List.map_cons, List.sum_cons, hs_low]
      · intro a b
        rw [hw2 a b]
        by_cases h1 : a ∈ rest ∧ b = jobId ∧ 0 < countOccs content a
        · rw [if_pos h1, if_pos ⟨List.mem_cons_of_mem _ h1.1, h1.2⟩]
        · rw [if_neg h1]
          by_cases h2 : b ∈ rest ∧ a = jobId ∧ 0 < countOccs content b
          · rw [if_pos h2]
            have hna : ¬(a ∈ s :: rest ∧ b = jobId ∧ 0 < countOccs content a) := by
              rintro ⟨hmem, -, -⟩
              rw [h2.2.1] at hmem
              exact hnotin hmem
            rw [if_neg hna, if_pos ⟨List.mem_cons_of_mem _ h2.1, h2.2⟩]
          · rw [if_neg h2, get_weight_add_edge hG1 a b]
            by_cases h3 : (a = s ∧ b = jobId) ∨ (a = jobId ∧ b = s)
            · rw [if_pos h3]
              rcases h3 with ⟨ha, hb⟩ | ⟨ha, hb⟩
              · rw [if_pos ⟨by rw [ha]; simp, hb, by rw [ha]; exact hc⟩, ha]
              · have hna : ¬(a ∈ s :: rest ∧ b = jobId ∧
                    0 < countOccs content a) := by
                  rintro ⟨hmem, -, -⟩
                  rw [ha] at hmem
                  exact hnotin hmem
                rw [if_neg hna,
                  if_pos ⟨by rw [hb]; simp, ha, by rw [hb]; exact hc⟩, hb]
            · rw [if_neg h3]
              have hna : ¬(a ∈ s :: rest ∧ b = jobId ∧ 0 < countOccs content a) := by
                rintro ⟨hmem, hbj, hpos⟩
                rcases List.mem_cons.mp hmem with rfl | hmem2
                · exact h3 (Or.inl ⟨rfl, hbj⟩)
                · exact h1 ⟨hmem2, hbj, hpos⟩
              have hnb : ¬(b ∈ s :: rest ∧ a = jobId ∧ 0 < countOccs content b) := by
                rintro ⟨hmem, haj, hpos⟩
                rcases List.mem_cons.mp hmem with rfl | hmem2
                · exact h3 (Or.inr ⟨haj, rfl⟩)
                · exact h2 ⟨hmem2, haj, hpos⟩
              rw [if_neg hna, if_neg hnb]
    · have hczero : countOccs content s = 0 := Nat.eq_zero_of_not_pos hc
      obtain ⟨g2, hrec, hkinds2, hN2, hw2⟩ := ih g jobId content
        (fun t ht => hlow t (by simp [ht]))
        (List.nodup_cons.mp hnd).2
        (fun t ht => hpres t (by simp [ht]))
        hjob
        hjob_notin_rest
        hN
      refine ⟨g2, ?_, hkinds2, hN2, ?_⟩
      · rw [addSkillEdges_cons, hs_low, if_neg hc, hrec]
        rw [List.map_cons, List.sum_cons, hs_low, hczero, Nat.zero_add]
      · intro a b
        rw [hw2 a b]
        by_cases h1 : a ∈ rest ∧ b = jobId ∧ 0 < countOccs content a
        · rw [if_pos h1, if_pos ⟨List.mem_cons_of_mem _ h1.1, h1.2⟩]
        · rw [if_neg h1]
          by_cases h2 : b ∈ rest ∧ a = jobId ∧ 0 < countOccs content b
          · rw [if_pos h2]
            have hna : ¬(a ∈ s :: rest ∧ b = jobId ∧ 0 < countOccs content a) := by
              rintro ⟨hmem, -, -⟩
              rw [h2.2.1] at hmem
              exact hnotin hmem
            rw [if_neg hna, if_pos ⟨List.mem_cons_of_mem _ h2.1, h2.2⟩]
          · rw [if_neg h2]
            have hna : ¬(a ∈ s :: rest ∧ b = jobId ∧ 0 < countOccs content a) := by
              rintro ⟨hmem, hbj, hpos⟩
              rcases List.mem_cons.mp hmem with rfl | hmem2
              · rw [hczero] at hpos
                exact Nat.lt_irrefl 0 hpos
              · exact h1 ⟨hmem2, hbj, hpos⟩
            have hnb : ¬(b ∈ s :: rest ∧ a = jobId ∧ 0 < countOccs content b) := by
              rintro ⟨hmem, haj, hpos⟩
              rcases List.mem_cons.mp hmem with rfl | hmem2
              · rw [hczero] at hpos
                exact Nat.lt_irrefl 0 hpos
              · exact h2 ⟨hmem2, haj, hpos⟩
            rw [if_neg hna, if_neg hnb]


theorem hasKey_of_skill_mem {g : WeightedGraph} {S : List String}
    {C : List (String × String)}
    (h1 : kindsOf g = (S.map fun s => (s, "skill")) ++ C) {s : String}
    (hs : s ∈ S) : hasKey g.vertices s = true := by
  rw [hasKey_kinds_mem, h1, List.map_append]
  refine List.mem_append.mpr (Or.inl ?_)
  rw [List.map_map]
  exact List.mem_map.mpr ⟨s, hs, rfl⟩

theorem hasKey_of_Ckey {g : WeightedGraph} {S : List String}
    {C : List (String × String)}
    (h1 : kindsOf g = (S.map fun s => (s, "skill")) ++ C) {j : String}
    (hj : j ∈ C.map Prod.fst) : hasKey g.vertices j = true := by
  rw [hasKey_kinds_mem, h1, List.map_append]
  exact List.mem_append.mpr (Or.inr hj)


theorem hasKey_eq_of_kindsOf_eq {g g' : WeightedGraph}
    (h : kindsOf g' = kindsOf g) (x : String) :
    hasKey g'.vertices x = hasKey g.vertices x := by
  have h1 := hasKey_kinds_mem g' x
  have h2 := hasKey_kinds_mem g x
  rw [h] at h1
  cases hk : hasKey g'.vertices x <;> cases hk2 : hasKey g.vertices x <;> simp_all

/-- Processing a single posting, on a graph whose vertices are the (nodup,
lower-case, marker-free) skills followed by job vertices: characterizes the
resulting graph's kinds, keys and the weights incident to the skills. -/
theorem processOne_spec {S : List String} (hlow : ∀ s ∈ S, strToLower s = s)
    (hnd : S.Nodup) (hmark : ∀ s ∈ S, containsMarkerB s = false)
    {g : WeightedGraph} {C : List (String × String)}
    (h1 : kindsOf g = (S.map fun s => (s, "skill")) ++ C)
    (hN : NbP g) (p : Job)
    (hfresh : hasKey g.vertices (jobLabel p) = false)
    (hfb : hasKey g.vertices (fallbackLabel (jobLabel p)) = false)
    (hmarkp : containsMarkerB (jobLabel p) = false) :
    ∃ g' : WeightedGraph,
      (∀ rest, processJobs g S (p :: rest) = processJobs g' S rest) ∧
      kindsOf g' = (S.map fun s => (s, "skill")) ++
        (C ++ ((jobLabel p, "job") ::
          (if (S.map fun s => countOccs (jobContent p) (strToLower s)).sum = 0 ∧
              S ≠ [] then
            [(fallbackLabel (jobLabel p), "job")]
          else []))) ∧
      NbP g' ∧
      (∀ x, hasKey g.vertices x = true → hasKey g'.vertices x = true) ∧
      (∀ x, hasKey g'.vertices x = true → hasKey g.vertices x = true ∨
        x = jobLabel p ∨ x = fallbackLabel (jobLabel p)) ∧
      (∀ j, hasKey g.vertices j = true →
        ∀ s ∈ S, get_weight g' s j = get_weight g s j) ∧
      (∀ s ∈ S, get_weight g' s (jobLabel p) =
        if 0 < countOccs (jobContent p) s then
          ((countOccs (jobContent p) s : Nat) : Int)
        else 0) ∧
      ((S.map fun s => countOccs (jobContent p) (strToLower s)).sum = 0 → S ≠ [] →
        ∀ s ∈ S, get_weight g' s (fallbackLabel (jobLabel p)) =
          if s = S.headI then 1 else 0) := by
  have hnotinS : jobLabel p ∉ S := fun hmem => by
    rw [hasKey_of_skill_mem h1 hmem] at hfresh
    cases hfresh
  have hfbnotinS : fallbackLabel (jobLabel p) ∉ S := fun hmem => by
    have hm := hmark _ hmem
    rw [containsMarkerB_fallbackLabel] at hm
    cases hm
  have hfbne : ¬fallbackLabel (jobLabel p) = jobLabel p :=
    ne_of_marker (containsMarkerB_fallbackLabel _) hmarkp
  have hka := hasKey_add_vertex g (jobLabel p) "job"
  have hkga : kindsOf (add_vertex g (jobLabel p) "job") =
      (S.map fun s => (s, "skill")) ++ (C ++ [(jobLabel p, "job")]) := by
    rw [kindsOf_add_vertex, if_neg (by simp [hfresh]), h1, List.append_assoc]
  have hNa : NbP (add_vertex g (jobLabel p) "job") := NbP_add_vertex hN _ _
  have hwa : ∀ a b, get_weight (add_vertex g (jobLabel p) "job") a b =
      get_weight g a b := get_weight_add_vertex hN _ "job"
  obtain ⟨gb, hase, hkgb, hNb, hwb⟩ := addSkillEdges_spec S
    (add_vertex g (jobLabel p) "job") (jobLabel p) (jobContent p) hlow hnd
    (fun s hs => by rw [hka]; simp [hasKey_of_skill_mem h1 hs])
    (by rw [hka]; simp)
    hnotinS hNa
  have hkeq_b : ∀ x, hasKey gb.vertices x =
      hasKey (add_vertex g (jobLabel p) "job").vertices x :=
    hasKey_eq_of_kindsOf_eq hkgb
  -- weights of gb at skill rows, old column j
  have hwb_old : ∀ j, hasKey g.vertices j = true →
      ∀ s ∈ S, get_weight gb s j = get_weight g s j := by
    intro j hj s hs
    rw [hwb s j]
    have hjne : ¬j = jobLabel p := by
      intro hh
      rw [hh, hfresh] at hj
      cases hj
    rw [if_neg (by rintro ⟨-, hh, -⟩; exact hjne hh)]
    rw [if_neg (by
      rintro ⟨-, hh, -⟩
      rw [hh] at hs
      exact hnotinS hs)]
    exact hwa s j
  have hwb_job : ∀ s ∈ S, get_weight gb s (jobLabel p) =
      if 0 < countOccs (jobContent p) s then
        ((countOccs (jobContent p) s : Nat) : Int) else 0 := by
    intro s hs
    rw [hwb s (jobLabel p)]
    by_cases hp : 0 < countOccs (jobContent p) s
    · rw [if_pos ⟨hs, rfl, hp⟩, if_pos hp]
    · rw [if_neg (by rintro ⟨-, -, hpp⟩; exact hp hpp)]
      rw [if_neg (by rintro ⟨hmem, -, -⟩; exact hnotinS hmem)]
      rw [if_neg hp, hwa s (jobLabel p)]
      exact get_weight_absent2 hfresh s
  have hwb_fb : ∀ s ∈ S,
      get_weight gb s (fallbackLabel (jobLabel p)) = 0 := by
    intro s hs
    rw [hwb s (fallbackLabel (jobLabel p))]
    rw [if_neg (by rintro ⟨-, hh, -⟩; exact hfbne hh)]
    rw [if_neg (by rintro ⟨hmem, -, -⟩; exact hfbnotinS hmem)]
    rw [hwa]
    exact get_weight_absent2 hfb s
  by_cases hms : (S.map fun s => countOccs (jobContent p) (strToLower s)).sum = 0
  · cases hSnil : S with
    | nil =>
      subst hSnil
      refine ⟨gb, ?_, ?_, hNb, ?_, ?_, ?_, ?_, ?_⟩
      · intro rest
        rw [processJobs_cons]
        simp only [hase]
        rw [if_pos (beq_iff_eq.mpr hms)]
      · rw [hkgb, hkga]
        rw [if_neg (by rintro ⟨-, hh⟩; exact hh rfl)]
      · intro x hx
        rw [hkeq_b, hka]
        simp [hx]
      · intro x hx
        rw [hkeq_b, hka] at hx
        rcases Bool.or_eq_true_iff.mp hx with hx2 | hx2
        · exact Or.inl hx2
        · exact Or.inr (Or.inl (by simpa using hx2))
      · exact hwb_old
      · exact hwb_job
      · intro _ hne
        exact absurd rfl hne
    | cons s0 stl =>
      subst hSnil
      have hs0mem : s0 ∈ s0 :: stl := by simp
      have hs0low : strToLower s0 = s0 := hlow s0 hs0mem
      have hfbfresh_b : hasKey gb.vertices (fallbackLabel (jobLabel p)) = false := by
        rw [hkeq_b, hka, hfb]
        simp [hfbne]
      have hkgc : kindsOf (add_vertex gb (fallbackLabel (jobLabel p)) "job") =
          kindsOf gb ++ [(fallbackLabel (jobLabel p), "job")] := by
        rw [kindsOf_add_vertex, if_neg (by simp [hfbfresh_b])]
      have hNc : NbP (add_vertex gb (fallbackLabel (jobLabel p)) "job") :=
        NbP_add_vertex hNb _ _
      have hwc : ∀ a b,
          get_weight (add_vertex gb (fallbackLabel (jobLabel p)) "job") a b =
          get_weight gb a b := get_weight_add_vertex hNb _ "job"
      have hkc := hasKey_add_vertex gb (fallbackLabel (jobLabel p)) "job"
      have hs0_c : hasKey (add_vertex gb (fallbackLabel (jobLabel p)) "job").vertices
          s0 = true := by
        rw [hkc, hkeq_b, hka]
        simp [hasKey_of_skill_mem h1 hs0mem]
      have hfb_c : hasKey (add_vertex gb (fallbackLabel (jobLabel p)) "job").vertices
          (fallbackLabel (jobLabel p)) = true := hasKey_add_vertex_self gb _ _
      obtain ⟨gd, hed⟩ : ∃ gd,
          add_edge (add_vertex gb (fallbackLabel (jobLabel p)) "job") s0
            (fallbackLabel (jobLabel p)) 1 = Except.ok gd :=
        ⟨_, add_edge_ok 1 hs0_c hfb_c⟩
      refine ⟨gd, ?_, ?_, NbP_add_edge hNc hed, ?_, ?_, ?_, ?_, ?_⟩
      · intro rest
        rw [processJobs_cons]
        simp only [hase]
        rw [if_pos (beq_iff_eq.mpr hms)]
        simp only [hs0low, hed]
      · rw [kindsOf_add_edge hed, hkgc, hkgb, hkga,
          if_pos ⟨hms, by intro hh; cases hh⟩]
        rw [List.append_assoc, List.append_assoc]
        rfl
      · intro x hx
        rw [hasKey_add_edge hed, hkc, hkeq_b, hka]
        simp [hx]
      · intro x hx
        rw [hasKey_add_edge hed, hkc, hkeq_b, hka] at hx
        rcases Bool.or_eq_true_iff.mp hx with hx2 | hx2
        · rcases Bool.or_eq_true_iff.mp hx2 with hx3 | hx3
          · exact Or.inl hx3
          · exact Or.inr (Or.inl (by simpa using hx3))
        · exact Or.inr (Or.inr (by simpa using hx2))
      · intro j hj s hs
        have hjfb : ¬j = fallbackLabel (jobLabel p) := by
          intro hh
          rw [hh, hfb] at hj
          cases hj
        have hsfb : ¬s = fallbackLabel (jobLabel p) :=
          fun hh => hfbnotinS (hh ▸ hs)
        rw [get_weight_add_edge hed s j]
        rw [if_neg (by
          rintro (⟨-, hh⟩ | ⟨hh, -⟩)
          · exact hjfb hh
          · exact hsfb hh)]
        rw [hwc]
        exact hwb_old j hj s hs
      · intro s hs
        have hsfb : ¬s = fallbackLabel (jobLabel p) :=
          fun hh => hfbnotinS (hh ▸ hs)
        have hjfb : ¬jobLabel p = fallbackLabel (jobLabel p) :=
          fun hh => hfbne hh.symm
        rw [get_weight_add_edge hed s (jobLabel p)]
        rw [if_neg (by
          rintro (⟨-, hh⟩ | ⟨hh, -⟩)
          · exact hjfb hh
          · exact hsfb hh)]
        rw [hwc]
        exact hwb_job s hs
      · intro _ _ s hs
        have hsfb : ¬s = fallbackLabel (jobLabel p) :=
          fun hh => hfbnotinS (hh ▸ hs)
        rw [get_weight_add_edge hed s (fallbackLabel (jobLabel p))]
        by_cases hss0 : s = s0
        · rw [if_pos (Or.inl ⟨hss0, rfl⟩), if_pos (by simpa using hss0)]
        · rw [if_neg (by
            rintro (⟨hh, -⟩ | ⟨hh, -⟩)
            · exact hss0 hh
            · exact hsfb hh)]
          rw [if_neg (by simpa using hss0)]
          rw [hwc]
          exact hwb_fb s hs
  · refine ⟨gb, ?_, ?_, hNb, ?_, ?_, hwb_old, hwb_job, ?_⟩
    · intro rest
      rw [processJobs_cons]
      simp only [hase]
      rw [if_neg (by rw [beq_iff_eq]; exact hms)]
    · rw [hkgb, hkga, if_neg (by rintro ⟨hh, -⟩; exact hms hh)]
    · intro x hx
      rw [hkeq_b, hka]
      simp [hx]
    · intro x hx
      rw [hkeq_b, hka] at hx
      rcases Bool.or_eq_true_iff.mp hx with hx2 | hx2
      · exact Or.inl hx2
      · exact Or.inr (Or.inl (by simpa using hx2))
    · intro hms0
      exact absurd hms0 hms


theorem headI_mem_of_ne_nil {l : List String} (h : l ≠ []) : l.headI ∈ l := by
  cases l with
  | nil => exact absurd rfl h
  | cons a t => simp

theorem processJobs_lockstep (S S2 : List String) (hperm : S.Perm S2)
    (hlow : ∀ s ∈ S, strToLower s = s) (hnd : S.Nodup)
    (hmark : ∀ s ∈ S, containsMarkerB s = false)
    (R : List Job) :
    ∀ (g1 g2 : WeightedGraph) (C : List (String × String)),
      kindsOf g1 = (S.map fun s => (s, "skill")) ++ C →
      kindsOf g2 = (S2.map fun s => (s, "skill")) ++ C →
      (∀ e ∈ C, e.2 = "job") →
      (∀ j ∈ C.map Prod.fst,
        (S.map fun s => get_weight g1 s j).sum =
        (S2.map fun s => get_weight g2 s j).sum) →
      NbP g1 → NbP g2 →
      (∀ p ∈ R, hasKey g1.vertices (jobLabel p) = false) →
      (∀ p ∈ R, hasKey g1.vertices (fallbackLabel (jobLabel p)) = false) →
      (R.map jobLabel).Nodup →
      (∀ p ∈ R, containsMarkerB (jobLabel p) = false) →
      ∃ G1 G2 D,
        processJobs g1 S R = Except.ok G1 ∧
        processJobs g2 S2 R = Except.ok G2 ∧
        kindsOf G1 = (S.map fun s => (s, "skill")) ++ D ∧
        kindsOf G2 = (S2.map fun s => (s, "skill")) ++ D ∧
        (∀ e ∈ D, e.2 = "job") ∧
        (∀ j ∈ D.map Prod.fst,
          (S.map fun s => get_weight G1 s j).sum =
          (S2.map fun s => get_weight G2 s j).sum) := by
  have hlow2 : ∀ s ∈ S2, strToLower s = s := fun s hs =>
    hlow s (hperm.mem_iff.mpr hs)
  have hnd2 : S2.Nodup := hperm.nodup_iff.mp hnd
  have hmark2 : ∀ s ∈ S2, containsMarkerB s = false := fun s hs =>
    hmark s (hperm.mem_iff.mpr hs)
  induction R with
  | nil =>
    intro g1 g2 C h1 h2 hC hW hN1 hN2 _ _ _ _
    exact ⟨g1, g2, C, rfl, rfl, h1, h2, hC, hW⟩
  | cons p rest ih =>
    intro g1 g2 C h1 h2 hC hW hN1 hN2 hfresh hfbfresh hndR hmarkR
    have hkeyeq : ∀ x, hasKey g1.vertices x = hasKey g2.vertices x :=
      hasKey_eq_of_kinds hperm h1 h2
    have hfresh1 := hfresh p (by simp)
    have hfresh2 : hasKey g2.vertices (jobLabel p) = false := by
      rw [← hkeyeq]
      exact hfresh1
    have hfb1 := hfbfresh p (by simp)
    have hfb2 : hasKey g2.vertices (fallbackLabel (jobLabel p)) = false := by
      rw [← hkeyeq]
      exact hfb1
    have hmarkp := hmarkR p (by simp)
    obtain ⟨g1a, heq1, hkk1, hN1a, hmono1, hinv1, hold1, hjob1, hfbw1⟩ :=
      processOne_spec hlow hnd hmark h1 hN1 p hfresh1 hfb1 hmarkp
    obtain ⟨g2a, heq2, hkk2, hN2a, hmono2, hinv2, hold2, hjob2, hfbw2⟩ :=
      processOne_spec hlow2 hnd2 hmark2 h2 hN2 p hfresh2 hfb2 hmarkp
    have hsum_eq : (S.map fun s => countOccs (jobContent p) (strToLower s)).sum =
        (S2.map fun s => countOccs (jobContent p) (strToLower s)).sum :=
      (hperm.map _).sum_eq
    have hSne : S = [] ↔ S2 = [] := by
      constructor
      · intro h
        exact ((h ▸ hperm).symm).eq_nil
      · intro h
        exact ((h ▸ hperm.symm).symm).eq_nil
    have hcond_eq :
        ((S.map fun s => countOccs (jobContent p) (strToLower s)).sum = 0 ∧
          S ≠ []) ↔
        ((S2.map fun s => countOccs (jobContent p) (strToLower s)).sum = 0 ∧
          S2 ≠ []) := by
      rw [hsum_eq]
      constructor
      · rintro ⟨ha, hb⟩
        exact ⟨ha, fun hx => hb (hSne.mpr hx)⟩
      · rintro ⟨ha, hb⟩
        exact ⟨ha, fun hx => hb (hSne.mp hx)⟩
    have hif : (if (S2.map fun s =>
          countOccs (jobContent p) (strToLower s)).sum = 0 ∧ S2 ≠ [] then
        [(fallbackLabel (jobLabel p), "job")] else []) =
        (if (S.map fun s =>
          countOccs (jobContent p) (strToLower s)).sum = 0 ∧ S ≠ [] then
        [(fallbackLabel (jobLabel p), "job")] else []) := by
      by_cases hcc : (S.map fun s =>
          countOccs (jobContent p) (strToLower s)).sum = 0 ∧ S ≠ []
      · rw [if_pos (hcond_eq.mp hcc), if_pos hcc]
      · rw [if_neg (fun hx => hcc (hcond_eq.mpr hx)), if_neg hcc]
    have hkk2b : kindsOf g2a = (S2.map fun s => (s, "skill")) ++
        (C ++ ((jobLabel p, "job") ::
          (if (S.map fun s => countOccs (jobContent p) (strToLower s)).sum = 0 ∧
              S ≠ [] then
            [(fallbackLabel (jobLabel p), "job")] else []))) := by
      rw [hkk2, hif]
    have hfreshg1a : ∀ y, hasKey g1.vertices y = false → ¬y = jobLabel p →
        ¬y = fallbackLabel (jobLabel p) → hasKey g1a.vertices y = false := by
      intro y hy hne1 hne2
      cases hx : hasKey g1a.vertices y with
      | false => rfl
      | true =>
        rcases hinv1 y hx with h | h | h
        · rw [hy] at h
          cases h
        · exact absurd h hne1
        · exact absurd h hne2
    have hlabne : ∀ p2 ∈ rest, ¬jobLabel p2 = jobLabel p := by
      intro p2 hp2 hh
      rw [List.map_cons, List.nodup_cons] at hndR
      exact hndR.1 (hh ▸ List.mem_map.mpr ⟨p2, hp2, rfl⟩)
    obtain ⟨G1, G2, D, e1, e2, k1, k2, kD, wD⟩ := ih g1a g2a
      (C ++ ((jobLabel p, "job") ::
        (if (S.map fun s => countOccs (jobContent p) (strToLower s)).sum = 0 ∧
            S ≠ [] then
          [(fallbackLabel (jobLabel p), "job")] else [])))
      hkk1 hkk2b
      (by
        intro e he
        rcases List.mem_append.mp he with h | h
        · exact hC e h
        · rcases List.mem_cons.mp h with rfl | h2
          · rfl
          · by_cases hcc : (S.map fun s =>
                countOccs (jobContent p) (strToLower s)).sum = 0 ∧ S ≠ []
            · rw [if_pos hcc] at h2
              rw [List.mem_singleton.mp h2]
            · rw [if_neg hcc] at h2
              cases h2)
      (by
        intro j hj
        rw [List.map_append, List.map_cons] at hj
        rcases List.mem_append.mp hj with hjC | hjrest
        · have hjpres1 : hasKey g1.vertices j = true := hasKey_of_Ckey h1 hjC
          have hjpres2 : hasKey g2.vertices j = true := by
            rw [← hkeyeq]
            exact hjpres1
          rw [List.map_congr_left (fun s hs => hold1 j hjpres1 s hs),
            List.map_congr_left (fun s hs => hold2 j hjpres2 s hs)]
          exact hW j hjC
        · rcases List.mem_cons.mp hjrest with rfl | hjfb
          · rw [List.map_congr_left (fun s hs => hjob1 s hs),
              List.map_congr_left (fun s hs => hjob2 s hs)]
            exact (hperm.map _).sum_eq
          · by_cases hcc : (S.map fun s =>
                countOccs (jobContent p) (strToLower s)).sum = 0 ∧ S ≠ []
            · rw [if_pos hcc] at hjfb
              simp only [List.map_cons, List.map_nil, List.mem_singleton] at hjfb
              subst hjfb
              have hcc2 := hcond_eq.mp hcc
              rw [List.map_congr_left (fun s hs => hfbw1 hcc.1 hcc.2 s hs),
                List.map_congr_left (fun s hs => hfbw2 hcc2.1 hcc2.2 s hs)]
              rw [sum_indicator_nodup hnd (headI_mem_of_ne_nil hcc.2),
                sum_indicator_nodup hnd2 (headI_mem_of_ne_nil hcc2.2)]
            · rw [if_neg hcc] at hjfb
              cases hjfb)
      hN1a hN2a
      (by
        intro p2 hp2
        exact hfreshg1a (jobLabel p2) (hfresh p2 (by simp [hp2]))
          (hlabne p2 hp2)
          (fun hh => (ne_of_marker (containsMarkerB_fallbackLabel _)
            (hmarkR p2 (by simp [hp2]))) hh.symm))
      (by
        intro p2 hp2
        exact hfreshg1a (fallbackLabel (jobLabel p2))
          (hfbfresh p2 (by simp [hp2]))
          (ne_of_marker (containsMarkerB_fallbackLabel _) hmarkp)
          (fun hh => hlabne p2 hp2 (fallbackLabel_inj hh)))
      (by
        rw [List.map_cons, List.nodup_cons] at hndR
        exact hndR.2)
      (fun p2 hp2 => hmarkR p2 (by simp [hp2]))
    refine ⟨G1, G2, D, ?_, ?_, k1, k2, kD, wD⟩
    · rw [heq1 rest]
      exact e1
    · rw [heq2 rest]
      exact e2


theorem NbP_skillsFold (S : List String) :
    ∀ g, NbP g →
      NbP (S.foldl (fun g s => add_vertex g (strToLower s) "skill") g) := by
  induction S with
  | nil =>
    intro g h
    exact h
  | cons s rest ih =>
    intro g h
    rw [List.foldl_cons]
    exact ih _ (NbP_add_vertex h _ _)

theorem kindsOf_skillsFold (S : List String) :
    ∀ (g : WeightedGraph), (∀ s ∈ S, strToLower s = s) → S.Nodup →
      (∀ s ∈ S, hasKey g.vertices s = false) →
      kindsOf (S.foldl (fun g s => add_vertex g (strToLower s) "skill") g) =
        kindsOf g ++ S.map (fun s => (s, "skill")) := by
  induction S with
  | nil =>
    intro g _ _ _
    simp
  | cons s0 rest ih =>
    intro g hlow hnd hfresh
    rw [List.foldl_cons]
    have hl0 : strToLower s0 = s0 := hlow s0 (by simp)
    have hfr0 : hasKey g.vertices s0 = false := hfresh s0 (by simp)
    have hstep : kindsOf (add_vertex g (strToLower s0) "skill") =
        kindsOf g ++ [(s0, "skill")] := by
      rw [hl0, kindsOf_add_vertex, if_neg (by simp [hfr0])]
    rw [ih (add_vertex g (strToLower s0) "skill")
        (fun s hs => hlow s (by simp [hs]))
        (List.nodup_cons.mp hnd).2
        (fun s hs => by
          rw [hl0, hasKey_add_vertex]
          have h1 : hasKey g.vertices s = false := hfresh s (by simp [hs])
          have h2 : ¬s = s0 := fun hh =>
            (List.nodup_cons.mp hnd).1 (hh ▸ hs)
          simp [h1, h2]),
      hstep]
    simp

/-- C6 (amended): re-ordering the skill list leaves the recommendation list
unchanged provided the skill list is duplicate-free, already lower-case and
free of the `" [Low Match]"` marker, and the posting labels are pairwise
distinct, marker-free and distinct from every skill. (Without these side
conditions the claim fails: duplicated skills make the fallback score depend
on which skill is listed first, see the counterexample.) -/
theorem claimC6 (S S2 : List String) (P : List Job) (limit : Nat)
    (g g' : WeightedGraph)
    (hperm : S.Perm S2) (hnd : S.Nodup)
    (hlow : ∀ s ∈ S, strToLower s = s)
    (hmark : ∀ s ∈ S, containsMarkerB s = false)
    (hndP : (P.map jobLabel).Nodup)
    (hmarkP : ∀ p ∈ P, containsMarkerB (jobLabel p) = false)
    (hdisj : ∀ p ∈ P, jobLabel p ∉ S)
    (hb1 : build_graph S P = Except.ok g)
    (hb2 : build_graph S2 P = Except.ok g') :
    recommend_jobs g S limit = recommend_jobs g' S2 limit := by
  have hlow2 : ∀ s ∈ S2, strToLower s = s := fun s hs =>
    hlow s (hperm.mem_iff.mpr hs)
  have hnd2 : S2.Nodup := hperm.nodup_iff.mp hnd
  have hb1' : processJobs
      (S.foldl (fun g s => add_vertex g (strToLower s) "skill") ⟨[]⟩)
      S P = Except.ok g := hb1
  have hb2' : processJobs
      (S2.foldl (fun g s => add_vertex g (strToLower s) "skill") ⟨[]⟩)
      S2 P = Except.ok g' := hb2
  have hk0 : kindsOf
      (S.foldl (fun g s => add_vertex g (strToLower s) "skill") ⟨[]⟩) =
      (S.map fun s => (s, "skill")) ++ [] := by
    rw [kindsOf_skillsFold S ⟨[]⟩ hlow hnd (fun s _ => rfl)]
    simp [kindsOf]
  have hk0' : kindsOf
      (S2.foldl (fun g s => add_vertex g (strToLower s) "skill") ⟨[]⟩) =
      (S2.map fun s => (s, "skill")) ++ [] := by
    rw [kindsOf_skillsFold S2 ⟨[]⟩ hlow2 hnd2 (fun s _ => rfl)]
    simp [kindsOf]
  have hfst : ∀ x, hasKey
      (S.foldl (fun g s => add_vertex g (strToLower s) "skill")
        ⟨[]⟩).vertices x = true → x ∈ S := by
    intro x hx
    rw [hasKey_kinds_mem, hk0] at hx
    simpa [List.map_map] using hx
  have hfreshL : ∀ p ∈ P, hasKey
      (S.foldl (fun g s => add_vertex g (strToLower s) "skill")
        ⟨[]⟩).vertices (jobLabel p) = false := by
    intro p hp
    cases hx : hasKey _ (jobLabel p) with
    | false => rfl
    | true => exact absurd (hfst _ hx) (hdisj p hp)
  have hfreshF : ∀ p ∈ P, hasKey
      (S.foldl (fun g s => add_vertex g (strToLower s) "skill")
        ⟨[]⟩).vertices (fallbackLabel (jobLabel p)) = false := by
    intro p hp
    cases hx : hasKey _ (fallbackLabel (jobLabel p)) with
    | false => rfl
    | true =>
      exact absurd rfl (ne_of_marker (containsMarkerB_fallbackLabel _)
        (hmark _ (hfst _ hx)))
  obtain ⟨G1, G2, D, e1, e2, k1, k2, kD, wD⟩ :=
    processJobs_lockstep S S2 hperm hlow hnd hmark P
      (S.foldl (fun g s => add_vertex g (strToLower s) "skill") ⟨[]⟩)
      (S2.foldl (fun g s => add_vertex g (strToLower s) "skill") ⟨[]⟩)
      [] hk0 hk0'
      (fun e he => absurd he (List.not_mem_nil e))
      (fun j hj => absurd hj (by simp))
      (NbP_skillsFold S ⟨[]⟩ NbP_empty)
      (NbP_skillsFold S2 ⟨[]⟩ NbP_empty)
      hfreshL hfreshF hndP hmarkP
  have hG1 : g = G1 := Except.ok.inj (hb1'.symm.trans e1)
  have hG2 : g' = G2 := Except.ok.inj (hb2'.symm.trans e2)
  subst hG1
  subst hG2
  have hjobs : get_all_vertices g "job" = get_all_vertices g' "job" := by
    rw [get_all_vertices_job_eq k1 kD, get_all_vertices_job_eq k2 kD]
  apply recommend_congr limit hjobs
  intro j hj
  have hjD : j ∈ D.map Prod.fst := by
    rw [get_all_vertices_job_eq k1 kD] at hj
    exact hj
  rw [totalWeight_eq_sum (fun s hs => hasKey_of_skill_mem k1 hs) j,
    totalWeight_eq_sum (fun s hs => hasKey_of_skill_mem k2 hs) j]
  exact wD j hjD

theorem claimC6_counterexample :
    List.Perm ["java", "java", "x"] ["x", "java", "java"] ∧
    build_graph ["java", "java", "x"] exampleJobsC6 =
      Except.ok exampleGraphX ∧
    build_graph ["x", "java", "java"] exampleJobsC6 =
      Except.ok exampleGraphY ∧
    recommend_jobs exampleGraphX ["java", "java", "x"] 5 =
      [("R at C [Low Match]", 2), ("R at C", 1)] ∧
    recommend_jobs exampleGraphY ["x", "java", "java"] 5 =
      [("R at C [Low Match]", 1), ("R at C", 1)] ∧
    ¬recommend_jobs exampleGraphX ["java", "java", "x"] 5 =
      recommend_jobs exampleGraphY ["x", "java", "java"] 5 :=
  ⟨by decide, rfl, rfl, by decide, by decide, by decide⟩

theorem claimC6_witness :
    recommend_jobs exampleGraphW1 ["java", "python"] 5 =
      recommend_jobs exampleGraphW2 ["python", "java"] 5 :=
  claimC6 ["java", "python"] ["python", "java"] exampleJobsW 5
    exampleGraphW1 exampleGraphW2 (by decide) (by decide) (by decide)
    (by decide) (by decide) (by decide) (by decide) rfl rfl

end JobRec
